import Mathlib

/-!
Verification of the fuzzy name-matching core of this repository
(src/day8.py and src/day9.py).

Python strings are modelled as `List Char`; Python `int` as `Nat`/`Int`
(all quantities here are provably non-negative except day9's `threshold`
argument, which is an `Int`).  The two Python modules are embedded in the
namespaces `Day8` and `Day9`; the shared mathematical reference definition
of edit distance lives in the namespace `EditDist`.
-/

set_option maxHeartbeats 1000000

namespace EditDist

/-- Reference (mathematical) Levenshtein distance on character lists, by the
standard first-character recursion.  This is the specification definition
against which the repository's dynamic-programming loops are verified. -/
def lev : List Char → List Char → Nat
  | [], t => t.length
  | s, [] => s.length
  | x :: xs, y :: ys =>
    min (min (lev xs (y :: ys) + 1) (lev (x :: xs) ys + 1))
      (lev xs ys + if x = y then 0 else 1)
termination_by s t => s.length + t.length

theorem lev_nil_left (t : List Char) : lev [] t = t.length := by
  cases t <;> simp [lev]

theorem lev_nil_right (s : List Char) : lev s [] = s.length := by
  cases s <;> simp [lev]

theorem lev_cons_cons (x y : Char) (xs ys : List Char) :
    lev (x :: xs) (y :: ys) =
      min (min (lev xs (y :: ys) + 1) (lev (x :: xs) ys + 1))
        (lev xs ys + if x = y then 0 else 1) := by
  simp [lev]

theorem lev_self (a : List Char) : lev a a = 0 := by
  induction a with
  | nil => simp [lev]
  | cons x xs ih => rw [lev_cons_cons]; simp [ih]

theorem eq_of_lev_eq_zero : ∀ {a b : List Char}, lev a b = 0 → a = b := by
  intro a b
  induction a, b using lev.induct with
  | case1 t => simp [lev_nil_left]
  | case2 s h => cases s with
    | nil => simp
    | cons x xs => simp [lev_nil_right]
  | case3 x xs y ys ih1 ih2 ih3 =>
    rw [lev_cons_cons]
    intro h
    by_cases hxy : x = y
    · simp only [hxy, if_true] at h
      have h3 : lev xs ys = 0 := by omega
      rw [hxy, ih3 h3]
    · simp only [hxy, if_false] at h
      omega

/-- A single edit operation: insertion, deletion, or substitution of one
character at an arbitrary position. -/
inductive OneEdit : List Char → List Char → Prop
  | ins (u v : List Char) (c : Char) : OneEdit (u ++ v) (u ++ c :: v)
  | del (u v : List Char) (c : Char) : OneEdit (u ++ c :: v) (u ++ v)
  | subst (u v : List Char) (c d : Char) : OneEdit (u ++ c :: v) (u ++ d :: v)

/-- `reach n a b` holds when `a` can be transformed into `b` by exactly `n`
single-character edit operations. -/
def reach : Nat → List Char → List Char → Prop
  | 0, a, b => a = b
  | n + 1, a, b => ∃ m, OneEdit a m ∧ reach n m b

theorem reach_zero {a b : List Char} (h : a = b) : reach 0 a b := h

theorem reach_succ {a m b : List Char} {n : Nat} (h1 : OneEdit a m)
    (h2 : reach n m b) : reach (n + 1) a b := ⟨m, h1, h2⟩

theorem reach_trans : ∀ {m : Nat} {n : Nat} {a b c : List Char},
    reach m a b → reach n b c → reach (m + n) a c := by
  intro m
  induction m with
  | zero => intro n a b c h1 h2; cases h1; simpa using h2
  | succ k ih =>
    intro n a b c h1 h2
    obtain ⟨w, hw, hr⟩ := h1
    have hEq : k + 1 + n = (k + n) + 1 := by omega
    rw [hEq]
    exact ⟨w, hw, ih hr h2⟩

theorem reach_snoc : ∀ {n : Nat} {a b c : List Char},
    reach n a b → OneEdit b c → reach (n + 1) a c := by
  intro n
  induction n with
  | zero => intro a b c h1 h2; cases h1; exact ⟨c, h2, rfl⟩
  | succ k ih =>
    intro a b c h1 h2
    obtain ⟨w, hw, hr⟩ := h1
    exact ⟨w, hw, ih hr h2⟩

theorem OneEdit.cons {a b : List Char} (x : Char) (h : OneEdit a b) :
    OneEdit (x :: a) (x :: b) := by
  cases h with
  | ins u v c => exact OneEdit.ins (x :: u) v c
  | del u v c => exact OneEdit.del (x :: u) v c
  | subst u v c d => exact OneEdit.subst (x :: u) v c d

theorem reach_cons : ∀ {n : Nat} {a b : List Char} (x : Char),
    reach n a b → reach n (x :: a) (x :: b) := by
  intro n
  induction n with
  | zero => intro a b x h; cases h; rfl
  | succ k ih =>
    intro a b x h
    obtain ⟨w, hw, hr⟩ := h
    exact ⟨x :: w, hw.cons x, ih x hr⟩

theorem OneEdit.symm {a b : List Char} (h : OneEdit a b) : OneEdit b a := by
  cases h with
  | ins u v c => exact OneEdit.del u v c
  | del u v c => exact OneEdit.ins u v c
  | subst u v c d => exact OneEdit.subst u v d c

theorem reach_symm : ∀ {n : Nat} {a b : List Char}, reach n a b → reach n b a := by
  intro n
  induction n with
  | zero => intro a b h; cases h; rfl
  | succ k ih =>
    intro a b h
    obtain ⟨w, hw, hr⟩ := h
    exact reach_snoc (ih hr) hw.symm

theorem OneEdit.rev {a b : List Char} (h : OneEdit a b) :
    OneEdit a.reverse b.reverse := by
  cases h with
  | ins u v c =>
    have h1 : (u ++ v).reverse = v.reverse ++ u.reverse := by simp
    have h2 : (u ++ c :: v).reverse = v.reverse ++ c :: u.reverse := by simp
    rw [h1, h2]; exact OneEdit.ins v.reverse u.reverse c
  | del u v c =>
    have h1 : (u ++ v).reverse = v.reverse ++ u.reverse := by simp
    have h2 : (u ++ c :: v).reverse = v.reverse ++ c :: u.reverse := by simp
    rw [h1, h2]; exact OneEdit.del v.reverse u.reverse c
  | subst u v c d =>
    have h1 : (u ++ c :: v).reverse = v.reverse ++ c :: u.reverse := by simp
    have h2 : (u ++ d :: v).reverse = v.reverse ++ d :: u.reverse := by simp
    rw [h1, h2]; exact OneEdit.subst v.reverse u.reverse c d

theorem reach_rev : ∀ {n : Nat} {a b : List Char},
    reach n a b → reach n a.reverse b.reverse := by
  intro n
  induction n with
  | zero => intro a b h; cases h; rfl
  | succ k ih =>
    intro a b h
    obtain ⟨w, hw, hr⟩ := h
    exact ⟨w.reverse, hw.rev, ih hr⟩

theorem OneEdit.length_le {a b : List Char} (h : OneEdit a b) :
    a.length ≤ b.length + 1 ∧ b.length ≤ a.length + 1 := by
  cases h <;> simp <;> omega

theorem reach_length : ∀ {n : Nat} {a b : List Char}, reach n a b →
    a.length ≤ b.length + n ∧ b.length ≤ a.length + n := by
  intro n
  induction n with
  | zero => intro a b h; cases h; omega
  | succ k ih =>
    intro a b h
    obtain ⟨w, hw, hr⟩ := h
    have h1 := hw.length_le
    have h2 := ih hr
    omega

theorem reach_of_nil : ∀ (t : List Char), reach t.length [] t := by
  intro t
  induction t with
  | nil => rfl
  | cons y ys ih =>
    exact reach_snoc (n := ys.length) ih (OneEdit.ins [] ys y)

theorem reach_to_nil : ∀ (s : List Char), reach s.length s [] := by
  intro s
  induction s with
  | nil => rfl
  | cons x xs ih => exact ⟨xs, OneEdit.del [] xs x, ih⟩

/-- A witnessing edit script: `lev a b` edit operations always suffice to
transform `a` into `b`. -/
theorem reach_lev : ∀ (a b : List Char), reach (lev a b) a b := by
  intro a b
  induction a, b using lev.induct with
  | case1 t => rw [lev_nil_left]; exact reach_of_nil t
  | case2 s hs => rw [lev_nil_right]; exact reach_to_nil s
  | case3 x xs y ys ih1 ih2 ih3 =>
    rw [lev_cons_cons]
    rcases min_choice (min (lev xs (y :: ys) + 1) (lev (x :: xs) ys + 1))
        (lev xs ys + if x = y then 0 else 1) with hout | hout
    · rw [hout]
      rcases min_choice (lev xs (y :: ys) + 1) (lev (x :: xs) ys + 1) with hin | hin
      · rw [hin]
        exact ⟨xs, OneEdit.del [] xs x, ih1⟩
      · rw [hin]
        exact reach_snoc ih2 (OneEdit.ins [] ys y)
    · rw [hout]
      by_cases hxy : x = y
      · subst hxy
        simpa using reach_cons x ih3
      · simp only [hxy, if_false]
        exact reach_snoc (reach_cons x ih3) (OneEdit.subst [] ys x y)

/-- One-sided Lipschitz property in the second argument: a character added
in front of the right operand raises the distance by at most 1. -/
theorem lev_le_cons_right (s t : List Char) (y : Char) :
    lev s (y :: t) ≤ lev s t + 1 := by
  cases s with
  | nil => simp [lev_nil_left]
  | cons x xs =>
    rw [lev_cons_cons]
    exact le_trans (min_le_left _ _) (min_le_right _ _)

/-- Dropping the first character of the left operand raises the distance by
at most 1. -/
theorem lev_cons_left_le (v b : List Char) (c : Char) :
    lev (c :: v) b ≤ lev v b + 1 := by
  cases b with
  | nil => simp [lev_nil_right]
  | cons y ys =>
    rw [lev_cons_cons]
    exact le_trans (min_le_left _ _) (min_le_left _ _)

/-- Adding a character in front of the left operand raises the distance
by at most 1. -/
theorem lev_le_cons_left : ∀ (b v : List Char) (c : Char),
    lev v b ≤ lev (c :: v) b + 1 := by
  intro b
  induction b with
  | nil => intro v c; simp [lev_nil_right]; omega
  | cons y ys ih =>
    intro v c
    rw [lev_cons_cons (x := c)]
    have h1 := lev_le_cons_right v ys y
    have h2 := ih v c
    rcases eq_or_ne c y with hcy | hcy
    · subst hcy; simp only [eq_self_iff_true, if_true]; omega
    · simp only [hcy, if_false]; omega

/-- Substituting the first character of the left operand changes the
distance by at most 1. -/
theorem lev_subst_left_le : ∀ (b v : List Char) (c d : Char),
    lev (c :: v) b ≤ lev (d :: v) b + 1 := by
  intro b
  induction b with
  | nil => intro v c d; simp [lev_nil_right]
  | cons y ys ih =>
    intro v c d
    rw [lev_cons_cons (x := c), lev_cons_cons (x := d)]
    have h2 := ih v c d
    rcases eq_or_ne c y with hcy | hcy <;> rcases eq_or_ne d y with hdy | hdy
    · subst hcy; subst hdy; simp only [eq_self_iff_true, if_true]; omega
    · subst hcy; simp only [eq_self_iff_true, if_true, hdy, if_false]; omega
    · subst hdy; simp only [eq_self_iff_true, if_true, hcy, if_false]; omega
    · simp only [hcy, hdy, if_false]; omega

/-- Lifting a one-step Lipschitz bound through a common first character. -/
theorem lev_cons_lift {s t : List Char} (z : Char)
    (h : ∀ b, lev s b ≤ lev t b + 1) : ∀ b, lev (z :: s) b ≤ lev (z :: t) b + 1 := by
  intro b
  induction b with
  | nil =>
    have := h []
    simp only [lev_nil_right, List.length_cons] at *
    omega
  | cons y ys ih =>
    rw [lev_cons_cons z y s ys, lev_cons_cons z y t ys]
    have h1 := h (y :: ys)
    have h2 := h ys
    rcases eq_or_ne z y with hzy | hzy
    · subst hzy; simp only [eq_self_iff_true, if_true]; omega
    · simp only [hzy, if_false]; omega

/-- A single edit step changes the distance to any fixed target by at most 1. -/
theorem lev_le_of_oneEdit {a m : List Char} (h : OneEdit a m) :
    ∀ b, lev a b ≤ lev m b + 1 := by
  cases h with
  | ins u v c =>
    induction u with
    | nil => intro b; exact lev_le_cons_left b v c
    | cons z u' ih => intro b; exact lev_cons_lift z ih b
  | del u v c =>
    induction u with
    | nil => intro b; exact lev_cons_left_le v b c
    | cons z u' ih => intro b; exact lev_cons_lift z ih b
  | subst u v c d =>
    induction u with
    | nil => intro b; exact lev_subst_left_le b v c d
    | cons z u' ih => intro b; exact lev_cons_lift z ih b

/-- Minimality: no edit script is shorter than `lev`. -/
theorem lev_le_reach : ∀ {n : Nat} {a b : List Char}, reach n a b → lev a b ≤ n := by
  intro n
  induction n with
  | zero => intro a b h; cases h; simp [lev_self]
  | succ k ih =>
    intro a b h
    obtain ⟨w, hw, hr⟩ := h
    have h1 := lev_le_of_oneEdit hw b
    have h2 := ih hr
    omega

theorem lev_symm (a b : List Char) : lev a b = lev b a := by
  have h1 : lev a b ≤ lev b a := lev_le_reach (reach_symm (reach_lev b a))
  have h2 : lev b a ≤ lev a b := lev_le_reach (reach_symm (reach_lev a b))
  omega

theorem lev_triangle (a b c : List Char) : lev a b ≤ lev a c + lev c b :=
  lev_le_reach (reach_trans (reach_lev a c) (reach_lev c b))

theorem lev_rev (a b : List Char) : lev a.reverse b.reverse = lev a b := by
  have h1 : lev a.reverse b.reverse ≤ lev a b := lev_le_reach (reach_rev (reach_lev a b))
  have h2 : lev a b ≤ lev a.reverse b.reverse := by
    have := lev_le_reach (reach_rev (reach_lev a.reverse b.reverse))
    simpa using this
  omega

/-- The length gap is a lower bound for the distance (both truncated
subtractions, since everything is in `Nat`). -/
theorem length_gap_le_lev (a b : List Char) :
    a.length - b.length ≤ lev a b ∧ b.length - a.length ≤ lev a b := by
  have := reach_length (reach_lev a b)
  omega

/-- The snoc-snoc recurrence, in the operand order used by the repository's
row updates (deletion, insertion, substitution). -/
theorem lev_snoc_snoc (u t : List Char) (x y : Char) :
    lev (u ++ [x]) (t ++ [y]) =
      min (min (lev (u ++ [x]) t + 1) (lev u (t ++ [y]) + 1))
        (lev u t + if x = y then 0 else 1) := by
  have h1 : lev (u ++ [x]) (t ++ [y]) = lev (x :: u.reverse) (y :: t.reverse) := by
    rw [← lev_rev (u ++ [x]) (t ++ [y])]; simp
  have h2 : lev u (t ++ [y]) = lev u.reverse (y :: t.reverse) := by
    rw [← lev_rev u (t ++ [y])]; simp
  have h3 : lev (u ++ [x]) t = lev (x :: u.reverse) t.reverse := by
    rw [← lev_rev (u ++ [x]) t]; simp
  have h4 : lev u t = lev u.reverse t.reverse := by rw [← lev_rev u t]
  rw [h1, h2, h3, h4, lev_cons_cons]
  rw [min_comm (lev u.reverse (y :: t.reverse) + 1) (lev (x :: u.reverse) t.reverse + 1)]

theorem lev_snoc_right_le (s t : List Char) (y : Char) :
    lev s (t ++ [y]) ≤ lev s t + 1 := by
  rw [← lev_rev s (t ++ [y]), ← lev_rev s t]
  simpa using lev_le_cons_right s.reverse t.reverse y

end EditDist

/-! ## Shared dynamic-programming row machinery

The Python code holds DP rows in mutable lists `prev` / `curr` of length
`len(a) + 1`; every cell that is ever read is written first in the same
row pass, so a row is a pure function of the previous row and is modelled
here as a function `Nat → Nat` (indices beyond `len(a)` are outside the
modelled array and are never read by any verified fact). -/

namespace DP

open EditDist

/-- Substitution cost of cell `i + 1`: compares `a[i]` with the current
character of `b` (`cost = 0 if a_local[i - 1] == bj else 1`). -/
def chCost (a : List Char) (cb : Char) (i : Nat) : Nat :=
  if a.getD i 'a' = cb then 0 else 1

/-- One row update.  `curr[0] = curr0`; cells in `[lo, hi]` follow the
deletion/insertion/substitution minimum of the source's inner loop; cells
outside the band are set to `big` (day9 lines 88-89 and 110-112). -/
def rowFun (a : List Char) (cb : Char) (lo hi big curr0 : Nat)
    (prev : Nat → Nat) : Nat → Nat
  | 0 => curr0
  | i + 1 =>
    if i + 1 < lo ∨ hi < i + 1 then big
    else
      min (min (prev (i + 1) + 1) (rowFun a cb lo hi big curr0 prev i + 1))
        (prev i + chCost a cb i)

/-- The running row minimum: seeded with `curr[0]`, then folded over the
values computed in the banded inner loop (`row_min` in the source). -/
def rowMinF (f : Nat → Nat) (curr0 lo hi : Nat) : Nat :=
  (List.range' lo (hi + 1 - lo)).foldl (fun m i => min m (f i)) curr0

theorem foldlMin_le_seed (f : Nat → Nat) :
    ∀ (l : List Nat) (c : Nat), (l.foldl (fun m i => min m (f i)) c) ≤ c := by
  intro l
  induction l with
  | nil => intro c; simp
  | cons x xs ih =>
    intro c
    have := ih (min c (f x))
    simp only [List.foldl_cons]
    omega

theorem foldlMin_le_mem (f : Nat → Nat) :
    ∀ (l : List Nat) (c : Nat) (i : Nat), i ∈ l →
      (l.foldl (fun m i => min m (f i)) c) ≤ f i := by
  intro l
  induction l with
  | nil => intro c i h; simp at h
  | cons x xs ih =>
    intro c i h
    rcases List.mem_cons.mp h with h | h
    · subst h
      have := foldlMin_le_seed f xs (min c (f i))
      simp only [List.foldl_cons]
      omega
    · simpa using ih (min c (f x)) i h

theorem rowMinF_le_seed (f : Nat → Nat) (curr0 lo hi : Nat) :
    rowMinF f curr0 lo hi ≤ curr0 := foldlMin_le_seed f _ curr0

theorem rowMinF_le (f : Nat → Nat) (curr0 lo hi i : Nat)
    (h1 : lo ≤ i) (h2 : i ≤ hi) : rowMinF f curr0 lo hi ≤ f i := by
  refine foldlMin_le_mem f _ curr0 i ?_
  rw [List.mem_range'_1]
  omega

theorem take_succ_getD (a : List Char) (i : Nat) (h : i < a.length) :
    a.take (i + 1) = a.take i ++ [a.getD i 'a'] := by
  rw [List.take_succ]
  simp [List.getElem?_eq_getElem h, List.getD_eq_getElem?_getD]

theorem chCost_eq (a : List Char) (cb : Char) (i : Nat) :
    chCost a cb i = if a.getD i 'a' = cb then 0 else 1 := rfl

/-- Full-width row update (the shape used when no band restricts the row):
if `prev` holds the distances of all prefixes of `a` to `t` and `curr0` is
the distance of the empty prefix to `t ++ [cb]`, the new row holds the
distances of all prefixes of `a` to `t ++ [cb]`. -/
theorem rowFun_exact (a t : List Char) (cb : Char) (big curr0 : Nat)
    (prev : Nat → Nat)
    (hprev : ∀ i, i ≤ a.length → prev i = lev (a.take i) t)
    (hcurr0 : curr0 = t.length + 1) :
    ∀ i, i ≤ a.length →
      rowFun a cb 1 a.length big curr0 prev i = lev (a.take i) (t ++ [cb]) := by
  intro i
  induction i with
  | zero =>
    intro hle
    simp [rowFun, hcurr0, lev_nil_left]
  | succ i ih =>
    intro hle
    have hi : i < a.length := by omega
    have hnotedge : ¬(i + 1 < 1 ∨ a.length < i + 1) := by omega
    rw [rowFun, if_neg hnotedge]
    rw [ih (by omega)]
    rw [hprev (i + 1) hle, hprev i (by omega)]
    rw [take_succ_getD a i hi]
    rw [lev_snoc_snoc (a.take i) t (a.getD i 'a') cb, chCost_eq]

end DP

/-! ## Embedding of src/day8.py -/

namespace Day8

open EditDist

/-- The row loop of day8's `_levenshtein` (lines 36-47): one row per
character of `b`, with `curr[0] = prev[0] + 1` and the full-width inner
loop; at the end the function returns `prev[la]`.  The `big` argument of
`DP.rowFun` is irrelevant here (day8 has no band) and is passed as 0. -/
def levGo (a : List Char) : List Char → (Nat → Nat) → Nat
  | [], prev => prev a.length
  | cb :: bs, prev => levGo a bs (DP.rowFun a cb 1 a.length 0 (prev 0 + 1) prev)

/-- day8's `_levenshtein` (src/day8.py lines 23-48): equality and empty
shortcuts, swap so the first operand is the shorter, then the two-row DP
with `prev` initialised to `range(la + 1)`. -/
def _levenshtein (a b : List Char) : Nat :=
  if a = b then 0
  else if a = [] then b.length
  else if b = [] then a.length
  else
    let p := if b.length < a.length then (b, a) else (a, b)
    levGo p.1 p.2 fun i => i

theorem levGo_correct (a : List Char) :
    ∀ (bs t : List Char) (prev : Nat → Nat),
      (∀ i, i ≤ a.length → prev i = lev (a.take i) t) →
      levGo a bs prev = lev a (t ++ bs) := by
  intro bs
  induction bs with
  | nil =>
    intro t prev hprev
    have := hprev a.length (le_refl _)
    simpa [levGo, List.take_length] using this
  | cons cb bs ih =>
    intro t prev hprev
    rw [levGo]
    have hc0 : prev 0 + 1 = t.length + 1 := by
      have := hprev 0 (by omega)
      simp [lev_nil_left] at this
      omega
    have hrow := DP.rowFun_exact a t cb 0 (prev 0 + 1) prev hprev hc0
    have := ih (t ++ [cb]) _ hrow
    rw [this]
    simp

/-- day8's `_levenshtein` computes the reference Levenshtein distance. -/
theorem _levenshtein_eq_lev (a b : List Char) : _levenshtein a b = lev a b := by
  unfold _levenshtein
  by_cases hab : a = b
  · simp [hab, lev_self]
  · rw [if_neg hab]
    by_cases ha : a = []
    · simp [ha, lev_nil_left]
    · rw [if_neg ha]
      by_cases hb : b = []
      · simp [hb, lev_nil_right]
      · rw [if_neg hb]
        have hinit : ∀ (c : List Char) (i : Nat), i ≤ c.length →
            (fun i => i) i = lev (c.take i) ([] : List Char) := by
          intro c i h
          simp [lev_nil_right, List.length_take]
          omega
        by_cases hlen : b.length < a.length
        · simp only [hlen, if_pos]
          have := levGo_correct b a [] (fun i => i) (hinit b)
          simp only [List.nil_append] at this
          simp [this, lev_symm b a]
        · simp only [hlen, if_neg, if_false]
          have := levGo_correct a b [] (fun i => i) (hinit a)
          simpa using this

/-! ## Embedding of src/day9.py: the banded Levenshtein engine -/

end Day8

namespace Day9

open EditDist

/-- The row loop of day9's `_levenshtein_banded` when `max_dist is None`
(full-width rows, `curr[0] = j`, no early exit).  `big` is day9's
`len_a + len_b + 1` sentinel, which no full-width cell ever reads. -/
def lbGoNone (a : List Char) (big : Nat) : List Char → Nat → (Nat → Nat) → Nat
  | [], _, prev => prev a.length
  | cb :: bs, j, prev =>
    lbGoNone a big bs (j + 1) (DP.rowFun a cb 1 a.length big j prev)

/-- The row loop of day9's `_levenshtein_banded` when a cutoff `d` is given:
band `[max(1, j - d), min(len_a, j + d)]`, `curr[0] = j if j <= d else
d + 1`, out-of-band cells set to `d + 1`, and the early return `d + 1`
when the row minimum exceeds `d` (source lines 75-117). -/
def lbGo (a : List Char) (d : Nat) : List Char → Nat → (Nat → Nat) → Nat
  | [], _, prev => prev a.length
  | cb :: bs, j, prev =>
    let lo := max 1 (j - d)
    let hi := min a.length (j + d)
    let curr0 := if j ≤ d then j else d + 1
    let curr := DP.rowFun a cb lo hi (d + 1) curr0 prev
    if d < DP.rowMinF curr curr0 lo hi then d + 1
    else lbGo a d bs (j + 1) curr

/-- day9's `_levenshtein_banded` (src/day9.py lines 34-119): equality and
empty shortcuts, swap so the first operand is the shorter, the immediate
length-gap return `max_dist + 1`, then the (optionally banded) two-row DP. -/
def _levenshtein_banded (a b : List Char) (max_dist : Option Nat) : Nat :=
  if a = b then 0
  else if a = [] then b.length
  else if b = [] then a.length
  else
    let p := if b.length < a.length then (b, a) else (a, b)
    match max_dist with
    | none => lbGoNone p.1 (p.1.length + p.2.length + 1) p.2 1 fun i => i
    | some d =>
      if d < p.2.length - p.1.length then d + 1
      else lbGo p.1 d p.2 1 fun i => if i ≤ d then i else d + 1

theorem lbGoNone_correct (a : List Char) (big : Nat) :
    ∀ (bs t : List Char) (prev : Nat → Nat),
      (∀ i, i ≤ a.length → prev i = lev (a.take i) t) →
      lbGoNone a big bs (t.length + 1) prev = lev a (t ++ bs) := by
  intro bs
  induction bs with
  | nil =>
    intro t prev hprev
    have := hprev a.length (le_refl _)
    simpa [lbGoNone, List.take_length] using this
  | cons cb bs ih =>
    intro t prev hprev
    rw [lbGoNone]
    have hrow := DP.rowFun_exact a t cb big (t.length + 1) prev hprev rfl
    have := ih (t ++ [cb]) _ hrow
    simp only [List.length_append, List.length_cons, List.length_nil] at this
    rw [show t.length + 1 + 1 = t.length + (0 + 1) + 1 by omega] at this
    rw [this]
    simp

/-- day9's `_levenshtein_banded` with `max_dist = None` computes the
reference Levenshtein distance. -/
theorem _levenshtein_banded_none_eq_lev (a b : List Char) :
    _levenshtein_banded a b none = lev a b := by
  unfold _levenshtein_banded
  by_cases hab : a = b
  · simp [hab, lev_self]
  · rw [if_neg hab]
    by_cases ha : a = []
    · simp [ha, lev_nil_left]
    · rw [if_neg ha]
      by_cases hb : b = []
      · simp [hb, lev_nil_right]
      · rw [if_neg hb]
        have hinit : ∀ (c : List Char) (i : Nat), i ≤ c.length →
            (fun i => i) i = lev (c.take i) ([] : List Char) := by
          intro c i h
          simp [lev_nil_right, List.length_take]
          omega
        by_cases hlen : b.length < a.length
        · simp only [hlen, if_pos]
          have := lbGoNone_correct b (b.length + a.length + 1) a [] (fun i => i) (hinit b)
          simp only [List.length_nil, List.nil_append] at this
          simp [this, lev_symm b a]
        · simp only [hlen, if_neg, if_false]
          have := lbGoNone_correct a (a.length + b.length + 1) b [] (fun i => i) (hinit a)
          simp only [List.length_nil, List.nil_append] at this
          simpa using this

end Day9

namespace Day9
open EditDist

/-- Pure arithmetic core of the in-band cell update: if the three incoming
cells dominate `min(true, d + 1)` and are exact below the cutoff, so is
the freshly computed cell. -/
theorem band_cell_arith (o1 oi n1 ni p1 pi fi c d : Nat)
    (hsnoc : n1 = min (min (o1 + 1) (ni + 1)) (oi + c))
    (hlow1 : min o1 (d + 1) ≤ p1) (hlowi : min ni (d + 1) ≤ fi)
    (hlow0 : min oi (d + 1) ≤ pi)
    (h1 : p1 = o1 ∨ (d + 1 ≤ p1 ∧ d + 1 ≤ o1))
    (h2 : fi = ni ∨ (d + 1 ≤ fi ∧ d + 1 ≤ ni))
    (h3 : pi = oi ∨ (d + 1 ≤ pi ∧ d + 1 ≤ oi)) :
    min n1 (d + 1) ≤ min (min (p1 + 1) (fi + 1)) (pi + c) ∧
      (n1 ≤ d → min (min (p1 + 1) (fi + 1)) (pi + c) = n1) := by
  rcases h1 with e1 | e1 <;> rcases h2 with e2 | e2 <;> rcases h3 with e3 | e3 <;>
    omega

/-- A cell that dominates `min(true, d + 1)` and is exact below the cutoff
is either exactly the true value or exceeds the cutoff. -/
theorem exact_or_big (x v d : Nat) (hl : min x (d + 1) ≤ v)
    (he : x ≤ d → v = x) : v = x ∨ (d + 1 ≤ v ∧ d + 1 ≤ x) := by
  rcases le_or_lt x d with h | h
  · exact Or.inl (he h)
  · right; omega

theorem band_edge_arith (x d i j lo hi la : Nat)
    (hlo : lo = max 1 (j - d)) (hhi : hi = min la (j + d))
    (hE : i + 1 < lo ∨ hi < i + 1) (hle : i + 1 ≤ la)
    (g1 : (i + 1) - j ≤ x) (g2 : j - (i + 1) ≤ x) :
    min x (d + 1) ≤ d + 1 ∧ (x ≤ d → d + 1 = x) := by
  constructor
  · omega
  · intro h; exfalso; omega

theorem band_zero_arith (j c0 d : Nat) (hc0 : c0 = if j ≤ d then j else d + 1) :
    min j (d + 1) ≤ c0 ∧ (j ≤ d → c0 = j) := by
  rcases le_or_lt j d with h | h
  · rw [hc0, if_pos h]; omega
  · rw [hc0, if_neg (by omega)]; exact ⟨by omega, fun hh => by omega⟩

theorem rowFun_band_cell (a t : List Char) (cb : Char) (d j lo hi c0 : Nat)
    (prev : Nat → Nat)
    (hj : j = t.length + 1)
    (hlo : lo = max 1 (j - d)) (hhi : hi = min a.length (j + d))
    (hc0 : c0 = if j ≤ d then j else d + 1)
    (hprev : ∀ i, i ≤ a.length →
      min (lev (a.take i) t) (d + 1) ≤ prev i ∧
        (lev (a.take i) t ≤ d → prev i = lev (a.take i) t)) :
    ∀ i, i ≤ a.length →
      min (lev (a.take i) (t ++ [cb])) (d + 1) ≤ DP.rowFun a cb lo hi (d + 1) c0 prev i ∧
        (lev (a.take i) (t ++ [cb]) ≤ d →
          DP.rowFun a cb lo hi (d + 1) c0 prev i = lev (a.take i) (t ++ [cb])) := by
  intro i
  induction i with
  | zero =>
    intro hle
    have h0 : DP.rowFun a cb lo hi (d + 1) c0 prev 0 = c0 := rfl
    have hlev0 : lev (a.take 0) (t ++ [cb]) = j := by
      simp [lev_nil_left, hj]
    rw [h0, hlev0]
    exact band_zero_arith j c0 d hc0
  | succ i ih =>
    intro hle
    have hilen : i < a.length := by omega
    have ihfacts := ih (by omega)
    have hstep : DP.rowFun a cb lo hi (d + 1) c0 prev (i + 1) =
        if i + 1 < lo ∨ hi < i + 1 then d + 1
        else
          min (min (prev (i + 1) + 1) (DP.rowFun a cb lo hi (d + 1) c0 prev i + 1))
            (prev i + DP.chCost a cb i) := rfl
    rw [hstep]
    by_cases hE : (i + 1 < lo ∨ hi < i + 1)
    · rw [if_pos hE]
      have gap := length_gap_le_lev (a.take (i + 1)) (t ++ [cb])
      have L1 : (a.take (i + 1)).length = i + 1 := by
        simp [List.length_take]; omega
      have L2 : (t ++ [cb]).length = t.length + 1 := by simp
      rw [L1, L2] at gap
      exact band_edge_arith (lev (a.take (i + 1)) (t ++ [cb])) d i j lo hi a.length
        hlo hhi hE hle (by omega) (by omega)
    · rw [if_neg hE]
      have hx := DP.take_succ_getD a i hilen
      have hsnoc := lev_snoc_snoc (a.take i) t (a.getD i 'a') cb
      rw [← hx, ← DP.chCost_eq a cb i] at hsnoc
      have hp1 := hprev (i + 1) hle
      have hp0 := hprev i (by omega)
      exact band_cell_arith
        (lev (a.take (i + 1)) t) (lev (a.take i) t)
        (lev (a.take (i + 1)) (t ++ [cb])) (lev (a.take i) (t ++ [cb]))
        (prev (i + 1)) (prev i)
        (DP.rowFun a cb lo hi (d + 1) c0 prev i) (DP.chCost a cb i) d
        hsnoc hp1.1 ihfacts.1 hp0.1
        (exact_or_big _ _ _ hp1.1 hp1.2)
        (exact_or_big _ _ _ ihfacts.1 ihfacts.2)
        (exact_or_big _ _ _ hp0.1 hp0.2)

end Day9

namespace Day9
open EditDist

/-- If a lower bound `m` holds for the distances of all prefixes of `a` to
`t`, it persists when `t` is extended on the right — hence it bounds
`lev a (t ++ bs)` for any continuation `bs`. -/
theorem allGE_extend (a : List Char) (m : Nat) :
    ∀ (bs t : List Char), (∀ i, i ≤ a.length → m ≤ lev (a.take i) t) →
      m ≤ lev a (t ++ bs) := by
  intro bs
  induction bs with
  | nil =>
    intro t h
    have := h a.length (le_refl _)
    simpa [List.take_length] using this
  | cons cb bs ih =>
    intro t h
    have hstep : ∀ i, i ≤ a.length → m ≤ lev (a.take i) (t ++ [cb]) := by
      intro i
      induction i with
      | zero =>
        intro _
        have h0 := h 0 (by omega)
        rw [List.take_zero, lev_nil_left] at h0 ⊢
        simp only [List.length_append, List.length_cons, List.length_nil]
        omega
      | succ i ihi =>
        intro hle
        have hilen : i < a.length := by omega
        have hx := DP.take_succ_getD a i hilen
        have hsnoc := lev_snoc_snoc (a.take i) t (a.getD i 'a') cb
        rw [← hx] at hsnoc
        have f1 := h (i + 1) hle
        have f2 := ihi (by omega)
        have f3 := h i (by omega)
        have hc : (0 : Nat) ≤ if a.getD i 'a' = cb then 0 else 1 := by omega
        omega
    have := ih (t ++ [cb]) hstep
    simpa using this

theorem lbGo_cons_eq (a : List Char) (d : Nat) (cb : Char) (bs : List Char)
    (j : Nat) (prev : Nat → Nat) :
    lbGo a d (cb :: bs) j prev =
      if d < DP.rowMinF
          (DP.rowFun a cb (max 1 (j - d)) (min a.length (j + d)) (d + 1)
            (if j ≤ d then j else d + 1) prev)
          (if j ≤ d then j else d + 1) (max 1 (j - d)) (min a.length (j + d))
      then d + 1
      else lbGo a d bs (j + 1)
        (DP.rowFun a cb (max 1 (j - d)) (min a.length (j + d)) (d + 1)
          (if j ≤ d then j else d + 1) prev) := rfl

/-- Outer banded loop: starting from a row satisfying the band invariant
for the processed prefix `t`, the loop returns the exact distance when it
is within the cutoff, and a value exceeding the cutoff otherwise. -/
theorem lbGo_correct (a : List Char) (d : Nat) :
    ∀ (bs t : List Char) (j : Nat) (prev : Nat → Nat), j = t.length + 1 →
      (∀ i, i ≤ a.length →
        min (lev (a.take i) t) (d + 1) ≤ prev i ∧
          (lev (a.take i) t ≤ d → prev i = lev (a.take i) t)) →
      (lev a (t ++ bs) ≤ d → lbGo a d bs j prev = lev a (t ++ bs)) ∧
        (d < lev a (t ++ bs) → d < lbGo a d bs j prev) := by
  intro bs
  induction bs with
  | nil =>
    intro t j prev hj hprev
    have hfin := hprev a.length (le_refl _)
    rw [List.take_length] at hfin
    simp only [lbGo, List.append_nil]
    exact ⟨fun h => hfin.2 h, fun h => by have := hfin.1; omega⟩
  | cons cb bs ih =>
    intro t j prev hj hprev
    rw [lbGo_cons_eq]
    have hrow := rowFun_band_cell a t cb d j (max 1 (j - d)) (min a.length (j + d))
      (if j ≤ d then j else d + 1) prev hj rfl rfl rfl hprev
    set F := DP.rowFun a cb (max 1 (j - d)) (min a.length (j + d)) (d + 1)
      (if j ≤ d then j else d + 1) prev with hFdef
    by_cases hex : d < DP.rowMinF F (if j ≤ d then j else d + 1)
        (max 1 (j - d)) (min a.length (j + d))
    · rw [if_pos hex]
      have hall : ∀ i, i ≤ a.length → d + 1 ≤ lev (a.take i) (t ++ [cb]) := by
        intro i hile
        by_contra hcon
        push_neg at hcon
        have hsmall : lev (a.take i) (t ++ [cb]) ≤ d := by omega
        have hcell := (hrow i hile).2 hsmall
        rcases Nat.eq_zero_or_pos i with hz | hpos
        · subst hz
          have hmin := DP.rowMinF_le_seed F (if j ≤ d then j else d + 1)
            (max 1 (j - d)) (min a.length (j + d))
          have hc0 : F 0 = (if j ≤ d then j else d + 1) := rfl
          have hlev0 : lev (a.take 0) (t ++ [cb]) = j := by
            simp [lev_nil_left, hj]
          rw [hlev0] at hcell hsmall
          rw [hc0] at hcell
          omega
        · have gap := length_gap_le_lev (a.take i) (t ++ [cb])
          have L1 : (a.take i).length = i := by simp [List.length_take]; omega
          have L2 : (t ++ [cb]).length = t.length + 1 := by simp
          rw [L1, L2] at gap
          have hmin := DP.rowMinF_le F (if j ≤ d then j else d + 1)
            (max 1 (j - d)) (min a.length (j + d)) i (by omega) (by omega)
          omega
      have hge := allGE_extend a (d + 1) bs (t ++ [cb]) hall
      rw [show (t ++ [cb]) ++ bs = t ++ cb :: bs by simp] at hge
      exact ⟨fun h => by omega, fun _ => by omega⟩
    · rw [if_neg hex]
      have hrec := ih (t ++ [cb]) (j + 1) F (by simp [hj]) hrow
      rw [show (t ++ [cb]) ++ bs = t ++ cb :: bs by simp] at hrec
      exact hrec

/-- Correctness of day9's banded engine with a cutoff: exact below the
cutoff, strictly above the cutoff otherwise. -/
theorem _levenshtein_banded_correct (a b : List Char) (d : Nat) :
    (lev a b ≤ d → _levenshtein_banded a b (some d) = lev a b) ∧
      (d < lev a b → d < _levenshtein_banded a b (some d)) := by
  unfold _levenshtein_banded
  by_cases hab : a = b
  · simp [hab, lev_self]
  · rw [if_neg hab]
    by_cases ha : a = []
    · subst ha
      simp [lev_nil_left]
    · rw [if_neg ha]
      by_cases hb : b = []
      · subst hb
        simp [lev_nil_right]
      · rw [if_neg hb]
        have hinit : ∀ (c : List Char) (i : Nat), i ≤ c.length →
            min (lev (c.take i) ([] : List Char)) (d + 1) ≤
                (if i ≤ d then i else d + 1) ∧
              (lev (c.take i) ([] : List Char) ≤ d →
                (if i ≤ d then i else d + 1) = lev (c.take i) ([] : List Char)) := by
          intro c i h
          have hlt : lev (c.take i) ([] : List Char) = i := by
            rw [lev_nil_right]
            simp [List.length_take]; omega
          rw [hlt]
          rcases le_or_lt i d with h2 | h2
          · rw [if_pos h2]; omega
          · rw [if_neg (by omega)]; exact ⟨by omega, fun hh => by omega⟩
        by_cases hlen : b.length < a.length
        · simp only [hlen, if_pos]
          by_cases hgap : d < a.length - b.length
          · simp only [hgap, if_pos]
            have gap := length_gap_le_lev a b
            exact ⟨fun h => by omega, fun _ => by omega⟩
          · simp only [hgap, if_neg, if_false]
            have hres := lbGo_correct b d a [] 1 (fun i => if i ≤ d then i else d + 1)
              (by simp) (fun i h => hinit b i h)
            simp only [List.nil_append] at hres
            rw [lev_symm b a] at hres
            exact hres
        · simp only [hlen, if_neg, if_false]
          by_cases hgap : d < b.length - a.length
          · simp only [hgap, if_pos]
            have gap := length_gap_le_lev a b
            exact ⟨fun h => by omega, fun _ => by omega⟩
          · simp only [hgap, if_neg, if_false]
            have hres := lbGo_correct a d b [] 1 (fun i => if i ≤ d then i else d + 1)
              (by simp) (fun i h => hinit a i h)
            simp only [List.nil_append] at hres
            exact hres

end Day9

/-! ## Embedding of the normalizer (`_normalize`, identical in src/day8.py
lines 15-20 and src/day9.py lines 27-31) and the Python stdlib pieces it
uses.

The stdlib behaviour that the source calls into is modelled as follows:
`unicodedata.normalize("NFKD", s)` as a per-character decomposition map
`nfkd : Char → List Char` applied pointwise, `unicodedata.combining` as a
predicate `combining : Char → Bool`, and `str.lower` as a per-character
map `lower : Char → List Char` (Python's `lower` can expand a character).
These three are parameters (a `Uni` record): the theorems below hold for
every instantiation that fixes the output alphabet `[a-z0-9 ]` pointwise,
which the real Unicode tables do.  The two regex substitutions and
`str.strip` are modelled directly as recursive functions. -/

namespace PyStr

/-- External Unicode behaviour consumed by `_strip_accents` and `.lower()`. -/
structure Uni where
  nfkd : Char → List Char
  combining : Char → Bool
  lower : Char → List Char

/-- The space character (written via `Char.ofNat` to keep character
literals simple). -/
def spaceChar : Char := Char.ofNat 32

/-- Membership in `[a-z0-9]`, the character class kept by
`_NON_ALNUM_RE = re.compile(r"[^a-z0-9]+")`. -/
def isLowerAlnum (c : Char) : Bool :=
  (97 ≤ c.toNat && c.toNat ≤ 122) || (48 ≤ c.toNat && c.toNat ≤ 57)

/-- ASCII whitespace matched by `_MULTI_SPACE_RE = re.compile(r"\s+")` and
stripped by `str.strip()` (space, tab, LF, VT, FF, CR). -/
def isPySpace (c : Char) : Bool :=
  c.toNat = 32 || c.toNat = 9 || c.toNat = 10 || c.toNat = 11 ||
    c.toNat = 12 || c.toNat = 13

/-- `_strip_accents`: NFKD-decompose and drop combining marks
(day8 lines 10-12, day9 lines 21-24). -/
def stripAccents (u : Uni) (s : List Char) : List Char :=
  (s.flatMap u.nfkd).filter fun c => !u.combining c

/-- `str.lower`, applied pointwise. -/
def pyLower (u : Uni) (s : List Char) : List Char :=
  s.flatMap u.lower

/-- `_NON_ALNUM_RE.sub(" ", s)`: replace every maximal run of characters
outside `[a-z0-9]` with a single space.  The boolean state records whether
the scan is inside such a run. -/
def subNA : Bool → List Char → List Char
  | _, [] => []
  | inRun, c :: cs =>
    if isLowerAlnum c then c :: subNA false cs
    else if inRun then subNA true cs
    else spaceChar :: subNA true cs

/-- `_MULTI_SPACE_RE.sub(" ", s)`: replace every maximal whitespace run
with a single space. -/
def subMS : Bool → List Char → List Char
  | _, [] => []
  | inRun, c :: cs =>
    if isPySpace c then
      if inRun then subMS true cs else spaceChar :: subMS true cs
    else c :: subMS false cs

/-- `str.strip()`: drop whitespace from both ends. -/
def pyStrip (s : List Char) : List Char :=
  (((s.dropWhile isPySpace).reverse).dropWhile isPySpace).reverse

end PyStr

namespace PyStr

/-- Characters of the normalized alphabet: lowercase ASCII alphanumerics
and the space. -/
def normAlpha (c : Char) : Prop := isLowerAlnum c = true ∨ c = spaceChar

/-- No two adjacent spaces. -/
def noTwo : List Char → Prop
  | [] => True
  | [_] => True
  | a :: b :: t => ¬(a = spaceChar ∧ b = spaceChar) ∧ noTwo (b :: t)

theorem noTwo_tail {c : Char} {cs : List Char} (h : noTwo (c :: cs)) : noTwo cs := by
  cases cs with
  | nil => trivial
  | cons b t => exact h.2

theorem noTwo_cons_of_head {c : Char} {cs : List Char} (h : noTwo cs)
    (hh : ∀ c0, cs.head? = some c0 → ¬(c = spaceChar ∧ c0 = spaceChar)) :
    noTwo (c :: cs) := by
  cases cs with
  | nil => trivial
  | cons b t => exact ⟨hh b rfl, h⟩

theorem isPySpace_spaceChar : isPySpace spaceChar = true := by decide

theorem not_isPySpace_of_isLowerAlnum {c : Char} (h : isLowerAlnum c = true) :
    isPySpace c = false := by
  have h2 : (97 ≤ c.toNat ∧ c.toNat ≤ 122) ∨ (48 ≤ c.toNat ∧ c.toNat ≤ 57) := by
    simpa [isLowerAlnum] using h
  simp [isPySpace]
  omega

theorem spaceChar_not_alnum : isLowerAlnum spaceChar = false := by decide

/-- Characters in the output of `subNA` lie in the normalized alphabet. -/
theorem subNA_alpha : ∀ (b : Bool) (s : List Char) (c : Char),
    c ∈ subNA b s → normAlpha c := by
  intro b s
  induction s generalizing b with
  | nil => intro c h; simp [subNA] at h
  | cons x xs ih =>
    intro c h
    rw [subNA] at h
    by_cases hx : isLowerAlnum x
    · rw [if_pos hx] at h
      rcases List.mem_cons.mp h with h | h
      · subst h; exact Or.inl hx
      · exact ih false c h
    · rw [if_neg hx] at h
      cases b with
      | true => exact ih true c (by simpa using h)
      | false =>
        simp only [Bool.false_eq_true, if_false] at h
        rcases List.mem_cons.mp h with h | h
        · subst h; exact Or.inr rfl
        · exact ih true c h

/-- `subMS` preserves the normalized alphabet. -/
theorem subMS_alpha : ∀ (b : Bool) (s : List Char),
    (∀ c ∈ s, normAlpha c) → ∀ c ∈ subMS b s, normAlpha c := by
  intro b s
  induction s generalizing b with
  | nil => intro _ c h; simp [subMS] at h
  | cons x xs ih =>
    intro hall c h
    rw [subMS] at h
    have hxs : ∀ c ∈ xs, normAlpha c := fun c hc => hall c (List.mem_cons_of_mem _ hc)
    by_cases hx : isPySpace x
    · rw [if_pos hx] at h
      cases b with
      | true => exact ih true hxs c (by simpa using h)
      | false =>
        simp only [Bool.false_eq_true, if_false] at h
        rcases List.mem_cons.mp h with h | h
        · subst h; exact Or.inr rfl
        · exact ih true hxs c h
    · rw [if_neg hx] at h
      rcases List.mem_cons.mp h with h | h
      · rw [h]; exact hall x (List.mem_cons_self x xs)
      · exact ih false hxs c h

/-- The head of `subMS true s` is never whitespace. -/
theorem subMS_true_head : ∀ (s : List Char) (c0 : Char),
    (subMS true s).head? = some c0 → isPySpace c0 = false := by
  intro s
  induction s with
  | nil => intro c0 h; simp [subMS] at h
  | cons x xs ih =>
    intro c0 h
    rw [subMS] at h
    by_cases hx : isPySpace x
    · rw [if_pos hx] at h
      exact ih c0 (by simpa using h)
    · rw [if_neg hx] at h
      simp only [List.head?_cons, Option.some_inj] at h
      subst h; exact Bool.eq_false_iff.mpr hx

/-- `subMS` never produces two adjacent spaces. -/
theorem subMS_noTwo : ∀ (b : Bool) (s : List Char), noTwo (subMS b s) := by
  intro b s
  induction s generalizing b with
  | nil => simp [subMS, noTwo]
  | cons x xs ih =>
    rw [subMS]
    by_cases hx : isPySpace x
    · rw [if_pos hx]
      cases b with
      | true => simpa using ih true
      | false =>
        simp only [Bool.false_eq_true, if_false]
        refine noTwo_cons_of_head (ih true) ?_
        intro c0 hc0 hcontra
        have := subMS_true_head xs c0 hc0
        rw [hcontra.2] at this
        rw [isPySpace_spaceChar] at this
        exact Bool.true_eq_false.mp this
    · rw [if_neg hx]
      refine noTwo_cons_of_head (ih false) ?_
      intro c0 _ hcontra
      rw [hcontra.1] at hx
      exact hx isPySpace_spaceChar

end PyStr

namespace PyStr

theorem head?_dropWhile (p : Char → Bool) :
    ∀ (s : List Char) (c0 : Char), (s.dropWhile p).head? = some c0 → p c0 = false := by
  intro s
  induction s with
  | nil => intro c0 h; simp at h
  | cons c cs ih =>
    intro c0 h
    rw [List.dropWhile_cons] at h
    by_cases hc : p c
    · rw [if_pos hc] at h; exact ih c0 h
    · rw [if_neg hc] at h
      simp only [List.head?_cons, Option.some_inj] at h
      subst h; exact Bool.eq_false_iff.mpr hc

theorem dropWhile_head_id (p : Char → Bool) (s : List Char)
    (h : ∀ c0, s.head? = some c0 → p c0 = false) : s.dropWhile p = s := by
  cases s with
  | nil => rfl
  | cons c cs =>
    rw [List.dropWhile_cons, if_neg]
    rw [h c rfl]
    simp

theorem dropWhile_idem (p : Char → Bool) (s : List Char) :
    (s.dropWhile p).dropWhile p = s.dropWhile p :=
  dropWhile_head_id p _ (head?_dropWhile p s)

theorem getLast?_dropWhile (p : Char → Bool) :
    ∀ (s : List Char), s.dropWhile p ≠ [] → (s.dropWhile p).getLast? = s.getLast? := by
  intro s
  induction s with
  | nil => intro h; simp at h
  | cons c cs ih =>
    intro h
    rw [List.dropWhile_cons] at h ⊢
    by_cases hc : p c
    · rw [if_pos hc] at h ⊢
      rw [ih h]
      have hcs : cs ≠ [] := by
        intro hnil; rw [hnil] at h; simp at h
      cases cs with
      | nil => exact absurd rfl hcs
      | cons b t => simp [List.getLast?_cons_cons]
    · rw [if_neg hc]

/-- The two `strip`-side invariants of a stripped string. -/
def Stripped (s : List Char) : Prop :=
  s.dropWhile isPySpace = s ∧ s.reverse.dropWhile isPySpace = s.reverse

theorem pyStrip_stripped (s : List Char) : Stripped (pyStrip s) := by
  constructor
  · refine dropWhile_head_id _ _ ?_
    intro c0 h
    rw [pyStrip, List.head?_reverse] at h
    by_cases hB : ((s.dropWhile isPySpace).reverse).dropWhile isPySpace = []
    · rw [hB] at h; simp at h
    · rw [getLast?_dropWhile _ _ hB] at h
      rw [List.getLast?_reverse] at h
      exact head?_dropWhile _ _ _ h
  · rw [pyStrip, List.reverse_reverse]
    exact dropWhile_idem _ _

theorem stripped_pyStrip_id (s : List Char) (h : Stripped s) : pyStrip s = s := by
  rw [pyStrip, h.1, h.2, List.reverse_reverse]

theorem noTwo_dropWhile (p : Char → Bool) :
    ∀ (s : List Char), noTwo s → noTwo (s.dropWhile p) := by
  intro s
  induction s with
  | nil => intro h; exact h
  | cons c cs ih =>
    intro h
    rw [List.dropWhile_cons]
    by_cases hc : p c
    · rw [if_pos hc]; exact ih (noTwo_tail h)
    · rw [if_neg hc]; exact h

theorem noTwo_snoc : ∀ (l : List Char) (a : Char), noTwo l →
    (∀ c0, l.getLast? = some c0 → ¬(c0 = spaceChar ∧ a = spaceChar)) →
    noTwo (l ++ [a]) := by
  intro l
  induction l with
  | nil => intro a _ _; trivial
  | cons c cs ih =>
    intro a h hh
    cases cs with
    | nil =>
      refine ⟨hh c rfl, trivial⟩
    | cons b t =>
      have step : noTwo ((b :: t) ++ [a]) :=
        ih a h.2 (fun c0 hc0 => hh c0 (by rw [List.getLast?_cons_cons]; exact hc0))
      exact ⟨h.1, step⟩

theorem noTwo_reverse : ∀ (l : List Char), noTwo l → noTwo l.reverse := by
  intro l
  induction l with
  | nil => intro h; exact h
  | cons c cs ih =>
    intro h
    rw [List.reverse_cons]
    refine noTwo_snoc cs.reverse c (ih (noTwo_tail h)) ?_
    intro c0 hc0 hcontra
    rw [List.getLast?_reverse] at hc0
    cases cs with
    | nil => simp at hc0
    | cons b t =>
      simp only [List.head?_cons, Option.some_inj] at hc0
      subst hc0
      exact h.1 ⟨hcontra.2, hcontra.1⟩

theorem noTwo_pyStrip (s : List Char) (h : noTwo s) : noTwo (pyStrip s) := by
  rw [pyStrip]
  exact noTwo_reverse _ (noTwo_dropWhile _ _ (noTwo_reverse _ (noTwo_dropWhile _ _ h)))

theorem mem_pyStrip {c : Char} {s : List Char} (h : c ∈ pyStrip s) : c ∈ s := by
  rw [pyStrip, List.mem_reverse] at h
  have h2 := (List.dropWhile_sublist (l := (s.dropWhile isPySpace).reverse)
    (p := isPySpace)).subset h
  rw [List.mem_reverse] at h2
  exact (List.dropWhile_sublist (l := s) (p := isPySpace)).subset h2

theorem subNA_id : ∀ (s : List Char), (∀ c ∈ s, normAlpha c) → noTwo s →
    subNA false s = s ∧
      ((∀ c0, s.head? = some c0 → c0 ≠ spaceChar) → subNA true s = s) := by
  intro s
  induction s with
  | nil => exact fun _ _ => ⟨rfl, fun _ => rfl⟩
  | cons x xs ih =>
    intro hall hnt
    have hxs : ∀ c ∈ xs, normAlpha c := fun c hc => hall c (List.mem_cons_of_mem _ hc)
    have ihx := ih hxs (noTwo_tail hnt)
    rcases hall x (List.mem_cons_self x xs) with hx | hx
    · constructor
      · rw [subNA, if_pos hx, ihx.1]
      · intro _; rw [subNA, if_pos hx, ihx.1]
    · have hxna : ¬isLowerAlnum x = true := by
        rw [hx, spaceChar_not_alnum]; simp
      constructor
      · rw [subNA, if_neg hxna]
        simp only [Bool.false_eq_true, if_false]
        have htail : subNA true xs = xs := by
          refine ihx.2 ?_
          intro c0 hc0 hc0space
          cases xs with
          | nil => simp at hc0
          | cons b t =>
            simp only [List.head?_cons, Option.some_inj] at hc0
            subst hc0
            exact hnt.1 ⟨hx, hc0space⟩
        rw [htail, hx]
      · intro hcond
        exact absurd hx (hcond x rfl)

theorem subMS_id : ∀ (s : List Char), (∀ c ∈ s, normAlpha c) → noTwo s →
    subMS false s = s ∧
      ((∀ c0, s.head? = some c0 → isPySpace c0 = false) → subMS true s = s) := by
  intro s
  induction s with
  | nil => exact fun _ _ => ⟨rfl, fun _ => rfl⟩
  | cons x xs ih =>
    intro hall hnt
    have hxs : ∀ c ∈ xs, normAlpha c := fun c hc => hall c (List.mem_cons_of_mem _ hc)
    have ihx := ih hxs (noTwo_tail hnt)
    by_cases hx : isPySpace x
    · have hxsp : x = spaceChar := by
        rcases hall x (List.mem_cons_self x xs) with h | h
        · rw [not_isPySpace_of_isLowerAlnum h] at hx
          exact absurd hx (by simp)
        · exact h
      have htail : subMS true xs = xs := by
        refine ihx.2 ?_
        intro c0 hc0
        cases xs with
        | nil => simp at hc0
        | cons b t =>
          simp only [List.head?_cons, Option.some_inj] at hc0
          subst hc0
          rcases hxs b (List.mem_cons_self b t) with h | h
          · exact not_isPySpace_of_isLowerAlnum h
          · exact absurd ⟨hxsp, h⟩ hnt.1
      constructor
      · rw [subMS, if_pos hx]
        simp only [Bool.false_eq_true, if_false]
        rw [htail, hxsp]
      · intro hcond
        have := hcond x rfl
        rw [this] at hx
        exact absurd hx (by simp)
    · constructor
      · rw [subMS, if_neg hx, ihx.1]
      · intro _; rw [subMS, if_neg hx, ihx.1]

theorem flatMap_id_of (f : Char → List Char) :
    ∀ (s : List Char), (∀ c ∈ s, f c = [c]) → s.flatMap f = s := by
  intro s
  induction s with
  | nil => intro _; rfl
  | cons c cs ih =>
    intro h
    rw [List.flatMap_cons, h c (List.mem_cons_self c cs),
      ih (fun c hc => h c (List.mem_cons_of_mem _ hc))]
    rfl

end PyStr

namespace Day8

/-- day8's `_strip_accents` (lines 10-12), relative to the Unicode model. -/
def _strip_accents (u : PyStr.Uni) (s : List Char) : List Char :=
  PyStr.stripAccents u s

/-- day8's `_normalize` (lines 15-20): strip accents, lowercase, replace
non-alphanumeric runs by single spaces, collapse whitespace, strip. -/
def _normalize (u : PyStr.Uni) (s : List Char) : List Char :=
  PyStr.pyStrip (PyStr.subMS false (PyStr.subNA false
    (PyStr.pyLower u (_strip_accents u s))))

end Day8

namespace Day9

/-- day9's `_strip_accents` (lines 21-24); textually identical to day8's. -/
def _strip_accents (u : PyStr.Uni) (s : List Char) : List Char :=
  PyStr.stripAccents u s

/-- day9's `_normalize` (lines 27-31); textually identical to day8's. -/
def _normalize (u : PyStr.Uni) (s : List Char) : List Char :=
  PyStr.pyStrip (PyStr.subMS false (PyStr.subNA false
    (PyStr.pyLower u (_strip_accents u s))))

theorem _normalize_eq_day8 (u : PyStr.Uni) (s : List Char) :
    _normalize u s = Day8._normalize u s := rfl

end Day9

namespace PyStr

/-- The Unicode hypothesis under which the normalizer's guarantees hold:
NFKD decomposition, the combining-mark predicate and `lower` all fix the
output alphabet `[a-z0-9 ]` pointwise (true of the real Unicode tables). -/
def UniFixesAlpha (u : Uni) : Prop :=
  ∀ c, normAlpha c → u.nfkd c = [c] ∧ u.combining c = false ∧ u.lower c = [c]

/-- Every character of a normalized string is in `[a-z0-9 ]`. -/
theorem normalize_alpha (u : Uni) (s : List Char) :
    ∀ c ∈ Day8._normalize u s, normAlpha c := by
  intro c hc
  have h1 := mem_pyStrip hc
  exact subMS_alpha false _ (fun c hc => subNA_alpha false _ c hc) c h1

theorem normalize_noTwo (u : Uni) (s : List Char) :
    noTwo (Day8._normalize u s) :=
  noTwo_pyStrip _ (subMS_noTwo false _)

theorem normalize_stripped (u : Uni) (s : List Char) :
    Stripped (Day8._normalize u s) :=
  pyStrip_stripped _

/-- `stripAccents` fixes strings over the normalized alphabet. -/
theorem stripAccents_fix (u : Uni) (hu : UniFixesAlpha u) (s : List Char)
    (h : ∀ c ∈ s, normAlpha c) : stripAccents u s = s := by
  rw [stripAccents]
  rw [flatMap_id_of u.nfkd s (fun c hc => (hu c (h c hc)).1)]
  rw [List.filter_eq_self.mpr]
  intro c hc
  rw [(hu c (h c hc)).2.1]
  simp

theorem pyLower_fix (u : Uni) (hu : UniFixesAlpha u) (s : List Char)
    (h : ∀ c ∈ s, normAlpha c) : pyLower u s = s := by
  rw [pyLower]
  exact flatMap_id_of u.lower s (fun c hc => (hu c (h c hc)).2.2)

end PyStr

namespace Day8

open PyStr

/-- Idempotence of the normalizer: normalizing an already-normalized
string is the identity (under the Unicode hypothesis `UniFixesAlpha`).
Totality is inherent in the embedding: `_normalize` is a total function
of its input. -/
theorem _normalize_idem (u : Uni) (hu : UniFixesAlpha u) (s : List Char) :
    _normalize u (_normalize u s) = _normalize u s := by
  have halpha := normalize_alpha u s
  have hnt := normalize_noTwo u s
  have hstr := normalize_stripped u s
  conv_lhs => rw [_normalize, _strip_accents]
  rw [stripAccents_fix u hu _ halpha]
  rw [pyLower_fix u hu _ halpha]
  rw [(subNA_id _ halpha hnt).1]
  rw [(subMS_id _ halpha hnt).1]
  exact stripped_pyStrip_id _ hstr

/-- The empty string normalizes to the empty string. -/
theorem _normalize_nil (u : Uni) : _normalize u [] = [] := rfl

end Day8

namespace PyStr

/-- Decrement an optional replacement budget (`none` = unlimited). -/
def decr : Option Nat → Option Nat
  | none => none
  | some n => some (n - 1)

/-- Python `str.replace` semantics: scan left to right, replace
non-overlapping occurrences of `old` by `new`, up to the optional budget;
an empty `old` matches at every position (including both ends). -/
def pyReplaceAux (old new : List Char) : List Char → Option Nat → List Char
  | s, some 0 => s
  | [], _ => if old = [] then new else []
  | c :: cs, cnt =>
    if hold : old = [] then new ++ c :: pyReplaceAux old new cs (decr cnt)
    else
      if old.isPrefixOf (c :: cs) then
        new ++ pyReplaceAux old new ((c :: cs).drop old.length) (decr cnt)
      else c :: pyReplaceAux old new cs cnt
termination_by s cnt => s.length
decreasing_by
  all_goals simp_wf
  all_goals try omega
  all_goals
    have hL : old.length ≠ 0 := fun h => hold (List.eq_nil_of_length_eq_zero h)
  all_goals simp
  all_goals omega

/-- Python `str.replace(old, new, count)`: a negative `count` means
"replace all". -/
def pyReplace (s old new : List Char) (count : Int) : List Char :=
  pyReplaceAux old new s (if count < 0 then none else some count.toNat)

end PyStr

namespace Day8

/-- day8's `_SpaceSafeString` (lines 51-74): a wrapper around a plain
string (`self._s`). -/
structure _SpaceSafeString where
  s : List Char

/-- `__str__` / `__repr__`: the wrapped string unchanged. -/
def _SpaceSafeString.str (w : _SpaceSafeString) : List Char := w.s

/-- `_SpaceSafeString.replace` (lines 62-68): returns `self` for the
specific call `.replace(" ", "")` (whatever the count), and otherwise
performs an ordinary `str.replace` on the wrapped string, rewrapped. -/
def _SpaceSafeString.replace (w : _SpaceSafeString) (old new : List Char)
    (count : Int) : _SpaceSafeString :=
  if old = [PyStr.spaceChar] ∧ new = [] then w
  else if count = -1 then ⟨PyStr.pyReplace w.s old new (-1)⟩
  else ⟨PyStr.pyReplace w.s old new count⟩

/-- The Python string literal `"None"` that day8's `solution` returns on
rejection. -/
def nONE : List Char := ['N', 'o', 'n', 'e']

/-- Return type of day8's `solution`: either a plain Python string or a
`_SpaceSafeString` wrapper. -/
inductive Ret where
  | strRet : List Char → Ret
  | wrapRet : _SpaceSafeString → Ret

/-- The scan of day8's `solution` (lines 90-96), instrumented with a
counter `k` of `_levenshtein` invocations (the counter is dropped by
`solution` and exists only to reason about early termination). -/
def scanGo (u : PyStr.Uni) (tgt : List Char) :
    List (List Char) → List Char → Nat → Nat → List Char × Nat × Nat
  | [], bn, bd, k => (bn, bd, k)
  | nm :: rest, bn, bd, k =>
    if _levenshtein tgt (_normalize u nm) < bd then
      if _levenshtein tgt (_normalize u nm) = 0 then
        (nm, _levenshtein tgt (_normalize u nm), k + 1)
      else scanGo u tgt rest nm (_levenshtein tgt (_normalize u nm)) (k + 1)
    else scanGo u tgt rest bn bd (k + 1)

/-- day8's `solution` (lines 77-105).  The defensive
`isinstance(names, str)` comma-splitting branch (lines 79-80) is outside
this embedding: the model always receives the list form.  The scan
carries the best original string rather than `best_idx`; the two are
interchangeable since only `names[best_idx]` is ever used. -/
def solution (u : PyStr.Uni) (names : List (List Char))
    (input_name : List Char) : Ret :=
  if names = [] then .strRet nONE
  else
    let tgt := _normalize u input_name
    let r := scanGo u tgt names.tail (names.headD [])
      (_levenshtein tgt (_normalize u (names.headD []))) 1
    let bl := (_normalize u r.1).length
    let best_len := if bl = 0 then 1 else bl
    let similarity : ℚ := 1 - (r.2.1 : ℚ) / ((max tgt.length best_len : Nat) : ℚ)
    if r.2.1 ≤ 3 ∨ (60 : ℚ) / 100 ≤ similarity then .wrapRet ⟨r.1⟩
    else .strRet nONE

/-- Number of `_levenshtein` calls performed by day8's `solution`. -/
def solutionCount (u : PyStr.Uni) (names : List (List Char))
    (input_name : List Char) : Nat :=
  if names = [] then 0
  else
    (scanGo u (_normalize u input_name) names.tail (names.headD [])
      (_levenshtein (_normalize u input_name) (_normalize u (names.headD []))) 1).2.2

end Day8

namespace Day8

open EditDist

/-- Distance from the normalized query to a candidate, as day8's scan
computes it. -/
def fdist (u : PyStr.Uni) (tgt : List Char) (o : List Char) : Nat :=
  _levenshtein tgt (_normalize u o)

/-- Pure fold describing the scan's best-state updates (strict
improvement only). -/
def scanFold (u : PyStr.Uni) (tgt : List Char) (rest : List (List Char))
    (bn : List Char) (bd : Nat) : List Char × Nat :=
  rest.foldl
    (fun acc nm => if fdist u tgt nm < acc.2 then (nm, fdist u tgt nm) else acc)
    (bn, bd)

/-- Running minimum of the seed and the candidates' distances. -/
def runMin (u : PyStr.Uni) (tgt : List Char) (rest : List (List Char))
    (bd : Nat) : Nat :=
  rest.foldl (fun m o => min m (fdist u tgt o)) bd

theorem scanFold_nil (u : PyStr.Uni) (tgt bn : List Char) (bd : Nat) :
    scanFold u tgt [] bn bd = (bn, bd) := rfl

theorem scanFold_cons (u : PyStr.Uni) (tgt bn nm : List Char)
    (rest : List (List Char)) (bd : Nat) :
    scanFold u tgt (nm :: rest) bn bd =
      if fdist u tgt nm < bd then scanFold u tgt rest nm (fdist u tgt nm)
      else scanFold u tgt rest bn bd := by
  rw [scanFold, List.foldl_cons]
  by_cases h : fdist u tgt nm < bd
  · rw [if_pos h, if_pos h]; rfl
  · rw [if_neg h, if_neg h]; rfl

theorem runMin_nil (u : PyStr.Uni) (tgt : List Char) (bd : Nat) :
    runMin u tgt [] bd = bd := rfl

theorem runMin_cons (u : PyStr.Uni) (tgt nm : List Char)
    (rest : List (List Char)) (bd : Nat) :
    runMin u tgt (nm :: rest) bd = runMin u tgt rest (min bd (fdist u tgt nm)) := rfl

theorem runMin_le_seed (u : PyStr.Uni) (tgt : List Char) :
    ∀ (rest : List (List Char)) (bd : Nat), runMin u tgt rest bd ≤ bd := by
  intro rest
  induction rest with
  | nil => intro bd; exact le_refl bd
  | cons nm rest ih =>
    intro bd
    rw [runMin_cons]
    exact le_trans (ih _) (by omega)

theorem scanFold_zero (u : PyStr.Uni) (tgt : List Char) :
    ∀ (rest : List (List Char)) (bn : List Char), scanFold u tgt rest bn 0 = (bn, 0) := by
  intro rest
  induction rest with
  | nil => intro bn; rfl
  | cons nm rest ih =>
    intro bn
    rw [scanFold_cons, if_neg (by omega)]
    exact ih bn

/-- The instrumented scan computes exactly the fold of best-state updates
(the `break` on an exact match does not change the final best state). -/
theorem scanGo_pair (u : PyStr.Uni) (tgt : List Char) :
    ∀ (rest : List (List Char)) (bn : List Char) (bd k : Nat),
      ((scanGo u tgt rest bn bd k).1, (scanGo u tgt rest bn bd k).2.1) =
        scanFold u tgt rest bn bd := by
  intro rest
  induction rest with
  | nil => intro bn bd k; rfl
  | cons nm rest ih =>
    intro bn bd k
    rw [scanGo, scanFold_cons]
    by_cases h : _levenshtein tgt (_normalize u nm) < bd
    · rw [if_pos h, if_pos (show fdist u tgt nm < bd from h)]
      by_cases h0 : _levenshtein tgt (_normalize u nm) = 0
      · rw [if_pos h0]
        have : fdist u tgt nm = 0 := h0
        rw [this, scanFold_zero]
        simp [h0]
      · rw [if_neg h0]
        exact ih nm _ (k + 1)
    · rw [if_neg h, if_neg (show ¬fdist u tgt nm < bd from h)]
      exact ih bn bd (k + 1)

/-- Characterization of the scan fold: the final distance is the running
minimum, the final name carries that distance, the seed survives iff it
attains the minimum, and otherwise the winner is the first candidate
attaining the minimum. -/
theorem scanFold_spec (u : PyStr.Uni) (tgt : List Char) :
    ∀ (rest : List (List Char)) (bn : List Char) (bd : Nat), fdist u tgt bn = bd →
      (scanFold u tgt rest bn bd).2 = runMin u tgt rest bd ∧
      fdist u tgt (scanFold u tgt rest bn bd).1 = (scanFold u tgt rest bn bd).2 ∧
      (bd = runMin u tgt rest bd → scanFold u tgt rest bn bd = (bn, bd)) ∧
      (runMin u tgt rest bd < bd →
        rest.find? (fun o => fdist u tgt o == runMin u tgt rest bd) =
          some (scanFold u tgt rest bn bd).1) := by
  intro rest
  induction rest with
  | nil =>
    intro bn bd hseed
    exact ⟨rfl, hseed, fun _ => rfl, fun h => absurd h (by rw [runMin_nil]; omega)⟩
  | cons nm rest ih =>
    intro bn bd hseed
    rw [scanFold_cons, runMin_cons]
    by_cases hd : fdist u tgt nm < bd
    · rw [if_pos hd]
      have hmm : min bd (fdist u tgt nm) = fdist u tgt nm := by omega
      rw [hmm]
      have ihx := ih nm (fdist u tgt nm) rfl
      refine ⟨ihx.1, ihx.2.1, ?_, ?_⟩
      · intro h
        exfalso
        have := runMin_le_seed u tgt rest (fdist u tgt nm)
        omega
      · intro hlt
        by_cases hnm : fdist u tgt nm = runMin u tgt rest (fdist u tgt nm)
        · have hb : (fdist u tgt nm == runMin u tgt rest (fdist u tgt nm)) = true :=
            beq_iff_eq.mpr hnm
          simp only [List.find?_cons, hb]
          have heq := ihx.2.2.1 hnm
          rw [heq]
        · have hb : (fdist u tgt nm == runMin u tgt rest (fdist u tgt nm)) = false := by
            rw [beq_eq_false_iff_ne]
            exact hnm
          simp only [List.find?_cons, hb]
          have hlt2 : runMin u tgt rest (fdist u tgt nm) < fdist u tgt nm := by
            have := runMin_le_seed u tgt rest (fdist u tgt nm)
            omega
          exact ihx.2.2.2 hlt2
    · rw [if_neg hd]
      have hmm : min bd (fdist u tgt nm) = bd := by omega
      rw [hmm]
      have ihx := ih bn bd hseed
      refine ⟨ihx.1, ihx.2.1, ihx.2.2.1, ?_⟩
      · intro hlt
        have hb : (fdist u tgt nm == runMin u tgt rest bd) = false := by
          rw [beq_eq_false_iff_ne]
          have := runMin_le_seed u tgt rest bd
          omega
        simp only [List.find?_cons, hb]
        exact ihx.2.2.2 hlt

/-- The scan winner is the seed or one of the scanned candidates. -/
theorem scanFold_mem (u : PyStr.Uni) (tgt : List Char) :
    ∀ (rest : List (List Char)) (bn : List Char) (bd : Nat),
      (scanFold u tgt rest bn bd).1 = bn ∨ (scanFold u tgt rest bn bd).1 ∈ rest := by
  intro rest
  induction rest with
  | nil => intro bn bd; exact Or.inl rfl
  | cons nm rest ih =>
    intro bn bd
    rw [scanFold_cons]
    by_cases hd : fdist u tgt nm < bd
    · rw [if_pos hd]
      rcases ih nm (fdist u tgt nm) with h | h
      · exact Or.inr (by rw [h]; exact List.mem_cons_self nm rest)
      · exact Or.inr (List.mem_cons_of_mem _ h)
    · rw [if_neg hd]
      rcases ih bn bd with h | h
      · exact Or.inl h
      · exact Or.inr (List.mem_cons_of_mem _ h)

/-- Count of distance computations: if the first exact candidate among the
scanned ones sits at position `j` (and the seed distance is nonzero), the
scan stops right after computing its distance. -/
theorem scanGo_count_exact (u : PyStr.Uni) (tgt : List Char) :
    ∀ (rest : List (List Char)) (j : Nat) (bn : List Char) (bd k : Nat),
      0 < bd → (hj : j < rest.length) →
      fdist u tgt (rest.get ⟨j, hj⟩) = 0 →
      (∀ i (hi : i < rest.length), i < j → fdist u tgt (rest.get ⟨i, hi⟩) ≠ 0) →
      (scanGo u tgt rest bn bd k).2.2 = k + j + 1 := by
  intro rest
  induction rest with
  | nil => intro j bn bd k hbd hj; simp at hj
  | cons nm rest ih =>
    intro j bn bd k hbd hj hex hmin
    rw [scanGo]
    cases j with
    | zero =>
      have h0 : _levenshtein tgt (_normalize u nm) = 0 := hex
      rw [if_pos (by rw [h0]; omega), if_pos h0]
    | succ j =>
      have hnm : fdist u tgt nm ≠ 0 := hmin 0 (by simp) (by omega)
      have hexx : fdist u tgt (rest.get ⟨j, by simpa using hj⟩) = 0 := by
        simpa using hex
      have hminn : ∀ i (hi : i < rest.length), i < j →
          fdist u tgt (rest.get ⟨i, hi⟩) ≠ 0 := by
        intro i hi hij
        have := hmin (i + 1) (by simpa using hi) (by omega)
        simpa using this
      have hnm2 : _levenshtein tgt (_normalize u nm) ≠ 0 := hnm
      by_cases hd : _levenshtein tgt (_normalize u nm) < bd
      · rw [if_pos hd, if_neg hnm2]
        have := ih j nm (_levenshtein tgt (_normalize u nm)) (k + 1) (by omega)
          (by simpa using hj) hexx hminn
        omega
      · rw [if_neg hd]
        have := ih j bn bd (k + 1) hbd (by simpa using hj) hexx hminn
        omega

end Day8

namespace Day9

open EditDist

/-- Absolute difference on `Nat` (Python's `abs(ln - la)` on ints). -/
def natAbsDiff (x y : Nat) : Nat := max (x - y) (y - x)

/-- The post-loop accept test of day9's `solution` (lines 177-179):
`None` when no best was recorded or the best distance exceeds the
threshold, else the pair. -/
def day9Finish (th : Nat) : Option (List Char) → Nat → Option (List Char × Nat)
  | none, _ => none
  | some n, bd => if th < bd then none else some (n, bd)

/-- The candidate loop of day9's `solution` (lines 165-175): length-based
pruning against the clamped threshold, banded distance with the tightened
cutoff `best_dist - 1`, strict-improvement update, break on distance 0. -/
def day9Go (s0 : List Char) (th : Nat) :
    List (List Char × List Char × Nat) → Option (List Char) → Nat →
      Option (List Char × Nat)
  | [], bn, bd => day9Finish th bn bd
  | (orig, nrm, ln) :: rest, bn, bd =>
    if th < natAbsDiff ln s0.length then day9Go s0 th rest bn bd
    else
      if _levenshtein_banded s0 nrm (some (bd - 1)) < bd then
        if _levenshtein_banded s0 nrm (some (bd - 1)) = 0 then
          day9Finish th (some orig) (_levenshtein_banded s0 nrm (some (bd - 1)))
        else day9Go s0 th rest (some orig)
          (_levenshtein_banded s0 nrm (some (bd - 1)))
      else day9Go s0 th rest bn bd

/-- day9's `solution` (src/day9.py lines 122-179).  The
`norm_to_first_original` dict keeps the first original for each normalized
form and is queried only at `s0`, which is modelled by `List.find?`;
`threshold.toNat` models the clamp `if threshold < 0: threshold = 0`. -/
def solution (u : PyStr.Uni) (inputName : List Char)
    (known_names : List (List Char)) (threshold : Int) :
    Option (List Char × Nat) :=
  if known_names = [] then none
  else
    let th : Nat := threshold.toNat
    let s0 := _normalize u inputName
    let known_norms := known_names.map fun orig =>
      (orig, _normalize u orig, (_normalize u orig).length)
    match known_names.find? fun orig => _normalize u orig == s0 with
    | some orig => some (orig, 0)
    | none => day9Go s0 th known_norms none (th + 1)

/-- Whether a call `_levenshtein_banded a b (some d)` actually enters the
DP row loop: the function short-circuits (without running any DP row) on
equal operands, an empty operand, or a length gap exceeding the cutoff. -/
def bandedRunsDP (a b : List Char) (d : Nat) : Bool :=
  !(a == b) && !(a == []) && !(b == []) && (natAbsDiff a.length b.length ≤ d)

/-- One record per candidate visited by day9's scan: whether the banded DP
actually ran for it (`ranDP = false` means the candidate was passed over
without any DP row being computed, either by the `continue` or by a
short-circuit return inside `_levenshtein_banded`), the value of
`best_dist` when it was visited, its normalized-length gap to the query,
and its normalized form. -/
structure TraceEntry where
  ranDP : Bool
  best : Nat
  gap : Nat
  nrm : List Char
deriving DecidableEq, Repr

/-- Instrumented mirror of `day9Go` recording a `TraceEntry` for each
candidate the scan visits (in order, stopping at a `break`). -/
def day9GoTrace (s0 : List Char) (th : Nat) :
    List (List Char × List Char × Nat) → Option (List Char) → Nat →
      List TraceEntry
  | [], _, _ => []
  | (orig, nrm, ln) :: rest, bn, bd =>
    if th < natAbsDiff ln s0.length then
      ⟨false, bd, natAbsDiff ln s0.length, nrm⟩ :: day9GoTrace s0 th rest bn bd
    else
      ⟨bandedRunsDP s0 nrm (bd - 1), bd, natAbsDiff ln s0.length, nrm⟩ ::
        (if _levenshtein_banded s0 nrm (some (bd - 1)) < bd then
          if _levenshtein_banded s0 nrm (some (bd - 1)) = 0 then []
          else day9GoTrace s0 th rest (some orig)
            (_levenshtein_banded s0 nrm (some (bd - 1)))
        else day9GoTrace s0 th rest bn bd)

/-- The trace of day9's `solution` over its scanned candidates (empty when
the pre-loop exact match returns early: no distance is computed at all). -/
def solutionTrace (u : PyStr.Uni) (inputName : List Char)
    (known_names : List (List Char)) (threshold : Int) : List TraceEntry :=
  if known_names = [] then []
  else
    let th : Nat := threshold.toNat
    let s0 := _normalize u inputName
    let known_norms := known_names.map fun orig =>
      (orig, _normalize u orig, (_normalize u orig).length)
    match known_names.find? fun orig => _normalize u orig == s0 with
    | some _ => []
    | none => day9GoTrace s0 th known_norms none (th + 1)

end Day9

namespace Day9

open EditDist

/-- Best-state fold describing day9's scan updates (strict improvement). -/
def foldBest (f : List Char → Nat) (rest : List (List Char))
    (bn : Option (List Char)) (bd : Nat) : Option (List Char) × Nat :=
  rest.foldl (fun acc o => if f o < acc.2 then (some o, f o) else acc) (bn, bd)

/-- Minimum of `seed` and the `f`-values of a list. -/
def listMinBy (f : List Char → Nat) (rest : List (List Char)) (seed : Nat) : Nat :=
  rest.foldl (fun m o => min m (f o)) seed

theorem foldBest_cons (f : List Char → Nat) (o : List Char)
    (rest : List (List Char)) (bn : Option (List Char)) (bd : Nat) :
    foldBest f (o :: rest) bn bd =
      if f o < bd then foldBest f rest (some o) (f o) else foldBest f rest bn bd := by
  rw [foldBest, List.foldl_cons]
  by_cases h : f o < bd
  · rw [if_pos h, if_pos h]; rfl
  · rw [if_neg h, if_neg h]; rfl

theorem listMinBy_cons (f : List Char → Nat) (o : List Char)
    (rest : List (List Char)) (seed : Nat) :
    listMinBy f (o :: rest) seed = listMinBy f rest (min seed (f o)) := rfl

theorem listMinBy_le_seed (f : List Char → Nat) :
    ∀ (rest : List (List Char)) (seed : Nat), listMinBy f rest seed ≤ seed := by
  intro rest
  induction rest with
  | nil => intro seed; exact le_refl seed
  | cons o rest ih =>
    intro seed
    rw [listMinBy_cons]
    exact le_trans (ih _) (by omega)

theorem listMinBy_le_mem (f : List Char → Nat) :
    ∀ (rest : List (List Char)) (seed : Nat) (o : List Char), o ∈ rest →
      listMinBy f rest seed ≤ f o := by
  intro rest
  induction rest with
  | nil => intro seed o h; simp at h
  | cons a rest ih =>
    intro seed o h
    rw [listMinBy_cons]
    rcases List.mem_cons.mp h with h | h
    · subst h
      exact le_trans (listMinBy_le_seed f rest _) (by omega)
    · exact ih _ o h

theorem listMinBy_min_pull (f : List Char → Nat) :
    ∀ (rest : List (List Char)) (a b : Nat),
      listMinBy f rest (min a b) = min a (listMinBy f rest b) := by
  intro rest
  induction rest with
  | nil => intro a b; rfl
  | cons o rest ih =>
    intro a b
    rw [listMinBy_cons, listMinBy_cons, min_assoc, ih]

/-- Characterization of `foldBest`: the final distance is the running
minimum, any recorded winner attains it, the seed survives iff it already
attains the minimum, and otherwise the winner is the first candidate
attaining the minimum. -/
theorem foldBest_spec (f : List Char → Nat) :
    ∀ (rest : List (List Char)) (bn : Option (List Char)) (bd : Nat),
      (∀ x, bn = some x → f x = bd) →
      (foldBest f rest bn bd).2 = listMinBy f rest bd ∧
      (∀ x, (foldBest f rest bn bd).1 = some x → f x = (foldBest f rest bn bd).2) ∧
      (bd = listMinBy f rest bd → foldBest f rest bn bd = (bn, bd)) ∧
      (listMinBy f rest bd < bd →
        rest.find? (fun o => f o == listMinBy f rest bd) = (foldBest f rest bn bd).1) := by
  intro rest
  induction rest with
  | nil =>
    intro bn bd hseed
    refine ⟨rfl, ?_, fun _ => rfl, fun h => absurd h (by rw [listMinBy]; simp)⟩
    intro x hx
    exact hseed x hx
  | cons nm rest ih =>
    intro bn bd hseed
    rw [foldBest_cons, listMinBy_cons]
    by_cases hd : f nm < bd
    · rw [if_pos hd]
      have hmm : min bd (f nm) = f nm := by omega
      rw [hmm]
      have ihx := ih (some nm) (f nm) (by intro x hx; cases hx; rfl)
      refine ⟨ihx.1, ihx.2.1, ?_, ?_⟩
      · intro h
        exfalso
        have := listMinBy_le_seed f rest (f nm)
        omega
      · intro hlt
        by_cases hnm : f nm = listMinBy f rest (f nm)
        · have hb : (f nm == listMinBy f rest (f nm)) = true := beq_iff_eq.mpr hnm
          simp only [List.find?_cons, hb]
          have heq := ihx.2.2.1 hnm
          rw [heq]
        · have hb : (f nm == listMinBy f rest (f nm)) = false := by
            rw [beq_eq_false_iff_ne]
            exact hnm
          simp only [List.find?_cons, hb]
          have hlt2 : listMinBy f rest (f nm) < f nm := by
            have := listMinBy_le_seed f rest (f nm)
            omega
          exact ihx.2.2.2 hlt2
    · rw [if_neg hd]
      have hmm : min bd (f nm) = bd := by omega
      rw [hmm]
      have ihx := ih bn bd hseed
      refine ⟨ihx.1, ihx.2.1, ihx.2.2.1, ?_⟩
      intro hlt
      have hb : (f nm == listMinBy f rest bd) = false := by
        rw [beq_eq_false_iff_ne]
        omega
      simp only [List.find?_cons, hb]
      exact ihx.2.2.2 hlt

/-- The loop of day9's `solution` computes exactly the best-state fold of
the unbounded distances (pruning and the banded cutoff never change the
recorded state), for states reachable in the loop: best distance between 1
and `threshold + 1`, and no exact match among the candidates. -/
theorem day9Go_eq_fold (u : PyStr.Uni) (s0 : List Char) (th : Nat) :
    ∀ (origs : List (List Char)) (bn : Option (List Char)) (bd : Nat),
      1 ≤ bd → bd ≤ th + 1 →
      (∀ o ∈ origs, _normalize u o ≠ s0) →
      day9Go s0 th (origs.map fun o =>
          (o, _normalize u o, (_normalize u o).length)) bn bd =
        day9Finish th
          (foldBest (fun o => lev s0 (_normalize u o)) origs bn bd).1
          (foldBest (fun o => lev s0 (_normalize u o)) origs bn bd).2 := by
  intro origs
  induction origs with
  | nil => intro bn bd h1 h2 hne; rfl
  | cons o rest ih =>
    intro bn bd h1 h2 hne
    have hno : _normalize u o ≠ s0 := hne o (List.mem_cons_self o rest)
    have hne2 : ∀ x ∈ rest, _normalize u x ≠ s0 :=
      fun x hx => hne x (List.mem_cons_of_mem _ hx)
    rw [List.map_cons, day9Go, foldBest_cons]
    have hfo0 : lev s0 (_normalize u o) ≠ 0 := by
      intro hz
      exact hno (eq_of_lev_eq_zero hz).symm
    by_cases hskip : th < natAbsDiff (_normalize u o).length s0.length
    · rw [if_pos hskip]
      have hgap := length_gap_le_lev s0 (_normalize u o)
      have hfo : ¬ lev s0 (_normalize u o) < bd := by
        rw [natAbsDiff] at hskip
        omega
      rw [if_neg hfo]
      exact ih bn bd h1 h2 hne2
    · rw [if_neg hskip]
      have hb := _levenshtein_banded_correct s0 (_normalize u o) (bd - 1)
      by_cases hfo : lev s0 (_normalize u o) ≤ bd - 1
      · have hdist := hb.1 hfo
        rw [hdist]
        have hlt : lev s0 (_normalize u o) < bd := by omega
        rw [if_pos hlt, if_neg hfo0, if_pos hlt]
        exact ih (some o) (lev s0 (_normalize u o)) (by omega) (by omega) hne2
      · have hgt := hb.2 (by omega)
        have hnl : ¬ _levenshtein_banded s0 (_normalize u o) (some (bd - 1)) < bd := by
          omega
        have hnl2 : ¬ lev s0 (_normalize u o) < bd := by omega
        rw [if_neg hnl, if_neg hnl2]
        exact ih bn bd h1 h2 hne2

theorem find?_congr (p q : List Char → Bool) (h : ∀ a, p a = q a) :
    ∀ (l : List (List Char)), l.find? p = l.find? q := by
  intro l
  induction l with
  | nil => rfl
  | cons a l ih => rw [List.find?_cons, List.find?_cons, h a, ih]

end Day9

namespace Day9

open EditDist

/-- Specification-side matcher, written from the claim: normalize, compute
every unbounded Levenshtein distance, take the minimum, accept iff it does
not exceed the threshold, and return the first distance-minimizing
candidate with that minimum. -/
def day9Naive (u : PyStr.Uni) (inputName : List Char)
    (known_names : List (List Char)) (th : Nat) : Option (List Char × Nat) :=
  match known_names with
  | [] => none
  | n0 :: rest =>
    let s0 := _normalize u inputName
    let f := fun o => lev s0 (_normalize u o)
    let m := listMinBy f rest (f n0)
    if th < m then none
    else ((n0 :: rest).find? fun o => f o == m).map fun o => (o, m)

theorem solution_unfold (u : PyStr.Uni) (q : List Char)
    (names : List (List Char)) (t : Int) (h : names ≠ []) :
    solution u q names t =
      match names.find? fun orig => _normalize u orig == _normalize u q with
      | some orig => some (orig, 0)
      | none =>
        day9Go (_normalize u q) t.toNat
          (names.map fun orig => (orig, _normalize u orig, (_normalize u orig).length))
          none (t.toNat + 1) := by
  rw [solution, if_neg h]

/-- day9's `solution` coincides with the naive full-scan matcher: the
pre-computed exact-match table, the length pruning, the tightened banded
cutoffs and the early break never change the returned value. -/
theorem solution_eq_naive (u : PyStr.Uni) (q : List Char)
    (names : List (List Char)) (t : Int) :
    solution u q names t = day9Naive u q names t.toNat := by
  cases names with
  | nil => rfl
  | cons n0 rest =>
    rw [solution_unfold u q (n0 :: rest) t (by simp), day9Naive]
    set s0 := _normalize u q with hs0
    set f : List Char → Nat := fun o => lev s0 (_normalize u o) with hf
    set th : Nat := t.toNat with hth
    have hpred : ∀ o : List Char, (f o == 0) = (_normalize u o == s0) := by
      intro o
      rcases eq_or_ne (_normalize u o) s0 with he | he
      · have hz : f o = 0 := by rw [hf]; simp [he, lev_self]
        rw [hz, he]
        simp
      · have hnz : f o ≠ 0 := by
          rw [hf]
          intro hz
          exact he (eq_of_lev_eq_zero hz).symm
        rw [beq_eq_false_iff_ne.mpr hnz, beq_eq_false_iff_ne.mpr he]
    cases hfind : (n0 :: rest).find? fun orig => _normalize u orig == s0 with
    | some o =>
      simp only [hfind]
      have hmem := List.mem_of_find?_eq_some hfind
      have hsat := List.find?_some hfind
      have hfo : f o = 0 := by
        rw [hf]
        have : _normalize u o = s0 := by simpa using hsat
        simp [this, lev_self]
      have hm : listMinBy f rest (f n0) = 0 := by
        rcases List.mem_cons.mp hmem with h | h
        · rw [h] at hfo
          rw [hfo]
          have := listMinBy_le_seed f rest 0
          omega
        · have := listMinBy_le_mem f rest (f n0) o h
          omega
      rw [hm]
      rw [if_neg (by omega)]
      have hcongr : ((n0 :: rest).find? fun o => f o == 0) =
          ((n0 :: rest).find? fun o => _normalize u o == s0) :=
        find?_congr _ _ hpred _
      rw [hcongr, hfind]
      rfl
    | none =>
      simp only [hfind]
      have hne : ∀ o ∈ n0 :: rest, _normalize u o ≠ s0 := by
        intro o ho
        have := List.find?_eq_none.mp hfind o ho
        simpa using this
      have hgo := day9Go_eq_fold u s0 th (n0 :: rest) none (th + 1)
        (by omega) (by omega) hne
      rw [hgo]
      have hspec := foldBest_spec f (n0 :: rest) none (th + 1) (by intro x hx; cases hx)
      have hm1 : listMinBy f (n0 :: rest) (th + 1) =
          min (th + 1) (listMinBy f rest (f n0)) := by
        rw [listMinBy_cons, ← listMinBy_min_pull]
      rcases le_or_lt (th + 1) (listMinBy f rest (f n0)) with hcase | hcase
      · have hm2 : listMinBy f (n0 :: rest) (th + 1) = th + 1 := by omega
        have hsurv := hspec.2.2.1 (by omega)
        rw [hsurv]
        rw [if_pos (show th < listMinBy f rest (f n0) by omega)]
        rfl
      · have hm2 : listMinBy f (n0 :: rest) (th + 1) = listMinBy f rest (f n0) := by
          omega
        have hwin := hspec.2.2.2 (by omega)
        have hval := hspec.1
        rw [hm2] at hwin hval
        rw [if_neg (show ¬th < listMinBy f rest (f n0) by omega), hwin]
        cases hfb : (foldBest f (n0 :: rest) none (th + 1)).1 with
        | none => rfl
        | some x =>
          rw [hval]
          show (if th < listMinBy f rest (f n0) then none
            else some (x, listMinBy f rest (f n0))) = _
          rw [if_neg (by omega)]
          rfl

end Day9

namespace Day9

open EditDist

theorem natAbsDiff_comm (x y : Nat) : natAbsDiff x y = natAbsDiff y x := by
  rw [natAbsDiff, natAbsDiff, Nat.max_comm]

/-- Skip characterization over the scan's trace: for every visited
candidate, under the invariants of the loop (no exact match among the
scanned candidates, best distance between 1 and `threshold + 1`), the
banded DP is skipped exactly when the candidate's normalized-length gap
exceeds the current best distance minus one — provided both normalized
strings are nonempty (`_levenshtein_banded` returns the other operand's
length without running any DP when one operand is empty). -/
theorem day9GoTrace_entries (u : PyStr.Uni) (s0 : List Char) (th : Nat) :
    ∀ (origs : List (List Char)) (bn : Option (List Char)) (bd : Nat),
      1 ≤ bd → bd ≤ th + 1 →
      (∀ o ∈ origs, _normalize u o ≠ s0) →
      ∀ e ∈ day9GoTrace s0 th (origs.map fun o =>
          (o, _normalize u o, (_normalize u o).length)) bn bd,
        s0 ≠ [] → e.nrm ≠ [] → (e.ranDP = false ↔ e.best - 1 < e.gap) := by
  intro origs
  induction origs with
  | nil => intro bn bd h1 h2 hne e he; simp [day9GoTrace] at he
  | cons o rest ih =>
    intro bn bd h1 h2 hne e he hs0 hnrm
    have hno : _normalize u o ≠ s0 := hne o (List.mem_cons_self o rest)
    have hne2 : ∀ x ∈ rest, _normalize u x ≠ s0 :=
      fun x hx => hne x (List.mem_cons_of_mem _ hx)
    rw [List.map_cons, day9GoTrace] at he
    by_cases hskip : th < natAbsDiff (_normalize u o).length s0.length
    · rw [if_pos hskip] at he
      rcases List.mem_cons.mp he with he | he
      · subst he
        simp only []
        constructor
        · intro _; omega
        · intro _; trivial
      · exact ih bn bd h1 h2 hne2 e he hs0 hnrm
    · rw [if_neg hskip] at he
      rcases List.mem_cons.mp he with he | he
      · subst he
        simp only []
        have hb1 : (s0 == _normalize u o) = false :=
          beq_eq_false_iff_ne.mpr (fun h => hno h.symm)
        have hb2 : (s0 == ([] : List Char)) = false := beq_eq_false_iff_ne.mpr hs0
        have hb3 : (_normalize u o == ([] : List Char)) = false :=
          beq_eq_false_iff_ne.mpr hnrm
        rw [bandedRunsDP, hb1, hb2, hb3]
        simp only [Bool.not_false, Bool.true_and]
        rw [natAbsDiff_comm s0.length (_normalize u o).length]
        constructor
        · intro h
          have := of_decide_eq_false h
          omega
        · intro h
          rw [decide_eq_false_iff_not]
          omega
      · by_cases hlt : _levenshtein_banded s0 (_normalize u o) (some (bd - 1)) < bd
        · rw [if_pos hlt] at he
          by_cases hz : _levenshtein_banded s0 (_normalize u o) (some (bd - 1)) = 0
          · rw [if_pos hz] at he
            simp at he
          · rw [if_neg hz] at he
            exact ih (some o) _ (by omega) (by omega) hne2 e he hs0 hnrm
        · rw [if_neg hlt] at he
          exact ih bn bd h1 h2 hne2 e he hs0 hnrm
end Day9

/-! ## Helpers shared by the claim theorems -/

/-- Concrete Unicode model used for witnesses: identity decomposition, no
combining marks, identity lowercasing (adequate for inputs that are
already lowercase ASCII). -/
def uniId : PyStr.Uni := ⟨fun c => [c], fun _ => false, fun c => [c]⟩

theorem uniId_fixes : PyStr.UniFixesAlpha uniId := fun _ _ => ⟨rfl, rfl, rfl⟩

namespace Day8

/-- The best state of day8's scan: winner, best distance, number of
distance computations. -/
def day8Best (u : PyStr.Uni) (names : List (List Char)) (q : List Char) :
    List Char × Nat × Nat :=
  scanGo u (_normalize u q) names.tail (names.headD [])
    (_levenshtein (_normalize u q) (_normalize u (names.headD []))) 1

/-- Equivalence of the acceptance ratio of the claim (denominator
`max(len(tgt), len(norm(best)))`) and of the code (denominator
`max(len(tgt), len(norm(best)) or 1)`), given that both lengths being
zero forces distance zero. -/
theorem gate_equiv (bd lt bl : Nat) (hcorner : bl = 0 → lt = 0 → bd = 0) :
    ((3 : ℚ) / 5 ≤ 1 - (bd : ℚ) / ((max lt bl : Nat) : ℚ)) ↔
      ((60 : ℚ) / 100 ≤ 1 - (bd : ℚ) /
        ((max lt (if bl = 0 then 1 else bl) : Nat) : ℚ)) := by
  have h60 : (60 : ℚ) / 100 = 3 / 5 := by norm_num
  rw [h60]
  by_cases hbl : bl = 0
  · subst hbl
    rw [if_pos rfl]
    by_cases hlt : lt = 0
    · subst hlt
      have hbd := hcorner rfl rfl
      subst hbd
      norm_num
    · have h1 : max lt 0 = lt := Nat.max_zero lt
      have h2 : max lt 1 = lt := Nat.max_eq_left (by omega)
      rw [h1, h2]
  · rw [if_neg hbl]

end Day8

namespace Day9

open EditDist

theorem listMinBy_attained (f : List Char → Nat) :
    ∀ (rest : List (List Char)) (seed : Nat),
      listMinBy f rest seed = seed ∨ ∃ o ∈ rest, f o = listMinBy f rest seed := by
  intro rest
  induction rest with
  | nil => intro seed; exact Or.inl rfl
  | cons a rest ih =>
    intro seed
    rw [listMinBy_cons]
    rcases ih (min seed (f a)) with h | h
    · rcases le_or_lt seed (f a) with hle | hlt
      · left; omega
      · right
        exact ⟨a, List.mem_cons_self a rest, by omega⟩
    · obtain ⟨o, ho, hfo⟩ := h
      exact Or.inr ⟨o, List.mem_cons_of_mem _ ho, hfo⟩

end Day9

/-! ## The claims -/

/-- C1: the spec (and the function's own docstring, src/day9.py line 37)
state that with a cutoff `d`, `_levenshtein_banded` returns exactly the
sentinel `d + 1` whenever the true distance exceeds `d`.  The code
violates this: for `a = "abXY"`, `b = "ZWab"`, `max_dist = 2` the true
distance is 4 (> 2) but the function returns 4, not the sentinel 3 — the
early-exit row-minimum check does not fire on the last row, and in-band
cells can exceed `big = d + 1`.  This theorem evaluates the embedded code
at the failing input (the agreement half of the claim, when the true
distance is within the cutoff, is proved in general as
`Day9._levenshtein_banded_correct`; the value returned here does still
exceed the cutoff). -/
theorem C1_sentinel_violation :
    Day9._levenshtein_banded ['a','b','X','Y'] ['Z','W','a','b'] (some 2) = 4 ∧
      Day8._levenshtein ['a','b','X','Y'] ['Z','W','a','b'] = 4 ∧
      Day9._levenshtein_banded ['a','b','X','Y'] ['Z','W','a','b'] none = 4 ∧
      (4 : Nat) ≠ 2 + 1 := by
  refine ⟨by decide, by decide, by decide, by decide⟩

/-- C2: day8's `_levenshtein` (and day9's `_levenshtein_banded` without a
cutoff) computes the Levenshtein distance: it equals the reference `lev`,
which is both achievable by an edit script of that length (`reach`) and
minimal among all edit scripts; it is 0 on equal strings and the length
of the other string when either string is empty. -/
theorem C2_levenshtein_correct (a b : List Char) :
    Day8._levenshtein a b = EditDist.lev a b ∧
      Day9._levenshtein_banded a b none = EditDist.lev a b ∧
      EditDist.reach (EditDist.lev a b) a b ∧
      (∀ n, EditDist.reach n a b → EditDist.lev a b ≤ n) ∧
      (a = b → Day8._levenshtein a b = 0) ∧
      Day8._levenshtein [] b = b.length ∧
      Day8._levenshtein a [] = a.length := by
  refine ⟨Day8._levenshtein_eq_lev a b, Day9._levenshtein_banded_none_eq_lev a b,
    EditDist.reach_lev a b, fun n h => EditDist.lev_le_reach h, ?_, ?_, ?_⟩
  · intro h
    rw [Day8._levenshtein_eq_lev, h, EditDist.lev_self]
  · rw [Day8._levenshtein_eq_lev, EditDist.lev_nil_left]
  · rw [Day8._levenshtein_eq_lev, EditDist.lev_nil_right]

theorem C2_witness :
    Day8._levenshtein ['a','b'] ['b'] = EditDist.lev ['a','b'] ['b'] :=
  (C2_levenshtein_correct ['a','b'] ['b']).1

/-- C6: the edit distance is a metric: non-negative, zero exactly on equal
strings, symmetric, and satisfying the triangle inequality. -/
theorem C6_metric (a b c : List Char) :
    0 ≤ Day8._levenshtein a b ∧
      (Day8._levenshtein a b = 0 ↔ a = b) ∧
      Day8._levenshtein a b = Day8._levenshtein b a ∧
      Day8._levenshtein a b ≤ Day8._levenshtein a c + Day8._levenshtein c b := by
  rw [Day8._levenshtein_eq_lev, Day8._levenshtein_eq_lev, Day8._levenshtein_eq_lev,
    Day8._levenshtein_eq_lev]
  refine ⟨Nat.zero_le _, ⟨fun h => EditDist.eq_of_lev_eq_zero h, fun h => ?_⟩,
    EditDist.lev_symm a b, EditDist.lev_triangle a b c⟩
  rw [h, EditDist.lev_self]

/-- C7: the normalizer is idempotent and total, and maps the empty string
to the empty string — for every Unicode model fixing the output alphabet
`[a-z0-9 ]` pointwise (`UniFixesAlpha`, true of the real Unicode tables).
Totality is inherent in the embedding: `_normalize` is a total function. -/
theorem C7_normalize_idempotent (u : PyStr.Uni) (hu : PyStr.UniFixesAlpha u)
    (s : List Char) :
    Day8._normalize u (Day8._normalize u s) = Day8._normalize u s ∧
      Day9._normalize u (Day9._normalize u s) = Day9._normalize u s ∧
      Day8._normalize u [] = [] ∧
      Day9._normalize u [] = [] := by
  exact ⟨Day8._normalize_idem u hu s, Day8._normalize_idem u hu s, rfl, rfl⟩

theorem C7_witness :
    Day8._normalize uniId (Day8._normalize uniId ['a', '?', '9']) =
      Day8._normalize uniId ['a', '?', '9'] :=
  (C7_normalize_idempotent uniId uniId_fixes ['a', '?', '9']).1

namespace Day9

open EditDist

theorem lev_beq_zero_iff_norm (u : PyStr.Uni) (s0 : List Char) :
    ∀ o : List Char,
      ((lev s0 (_normalize u o) == 0) = (_normalize u o == s0)) := by
  intro o
  rcases eq_or_ne (_normalize u o) s0 with he | he
  · have hz : lev s0 (_normalize u o) = 0 := by simp [he, lev_self]
    rw [hz, he]
    simp
  · have hnz : lev s0 (_normalize u o) ≠ 0 := by
      intro hz
      exact he (eq_of_lev_eq_zero hz).symm
    rw [beq_eq_false_iff_ne.mpr hnz, beq_eq_false_iff_ne.mpr he]

end Day9

/-- C3: day9's `solution` returns `None` exactly when the candidate list
is empty or the minimum over all candidates of the (unbounded) Levenshtein
distance between the normalized query and the normalized candidate exceeds
the threshold; otherwise it returns the pair of the original text of the
first distance-minimizing candidate and that minimum distance. -/
theorem C3_day9_contract (u : PyStr.Uni) (q : List Char)
    (names : List (List Char)) (t : Int) (ht : 0 ≤ t) :
    (names = [] → Day9.solution u q names t = none) ∧
      (∀ n0 rest, names = n0 :: rest →
        (Day9.solution u q names t = none ↔
          t < (Day9.listMinBy
            (fun o => EditDist.lev (Day9._normalize u q) (Day9._normalize u o))
            rest (EditDist.lev (Day9._normalize u q) (Day9._normalize u n0)) : Int)) ∧
        (∀ m : Nat,
          m = Day9.listMinBy
            (fun o => EditDist.lev (Day9._normalize u q) (Day9._normalize u o))
            rest (EditDist.lev (Day9._normalize u q) (Day9._normalize u n0)) →
          (m : Int) ≤ t →
          Day9.solution u q names t =
            some ((names.find? fun o =>
              EditDist.lev (Day9._normalize u q) (Day9._normalize u o) == m).getD n0,
              m))) := by
  constructor
  · intro h; subst h; rfl
  · intro n0 rest hn
    subst hn
    rw [Day9.solution_eq_naive, Day9.day9Naive]
    set s0 := Day9._normalize u q with hs0
    set f : List Char → Nat := fun o => EditDist.lev s0 (Day9._normalize u o) with hf
    set m0 : Nat := Day9.listMinBy f rest (f n0) with hm0
    have hth : ((t.toNat : Nat) : Int) = t := Int.toNat_of_nonneg ht
    have hfind : ∀ hm : m0 ≤ t.toNat, True → ∃ x,
        ((n0 :: rest).find? fun o => f o == m0) = some x := by
      intro hm _
      have hatt : ∃ o ∈ n0 :: rest, (f o == m0) = true := by
        rcases Day9.listMinBy_attained f rest (f n0) with h | h
        · exact ⟨n0, List.mem_cons_self n0 rest, beq_iff_eq.mpr h.symm⟩
        · obtain ⟨o, ho, hfo⟩ := h
          exact ⟨o, List.mem_cons_of_mem _ ho, beq_iff_eq.mpr hfo⟩
      rcases hopt : (n0 :: rest).find? fun o => f o == m0 with _ | x
      · exfalso
        obtain ⟨o, ho, hp⟩ := hatt
        have hcon := List.find?_eq_none.mp hopt o ho
        rw [hp] at hcon
        exact hcon rfl
      · exact ⟨x, rfl⟩
    constructor
    · by_cases hcase : t.toNat < m0
      · rw [if_pos hcase]
        constructor
        · intro _; omega
        · intro _; rfl
      · rw [if_neg hcase]
        obtain ⟨x, hx⟩ := hfind (by omega) trivial
        rw [hx]
        constructor
        · intro h; simp at h
        · intro h; omega
    · intro m hm hmt
      subst hm
      have hcase : ¬ t.toNat < m0 := by omega
      rw [if_neg hcase]
      obtain ⟨x, hx⟩ := hfind (by omega) trivial
      rw [hx]
      simp

theorem C3_witness :
    Day9.solution uniId ['a', 'b'] [['a', 'b'], ['c']] 3 =
      some (([['a', 'b'], ['c']].find? fun o =>
        EditDist.lev (Day9._normalize uniId ['a', 'b']) (Day9._normalize uniId o) ==
          Day9.listMinBy
            (fun o => EditDist.lev (Day9._normalize uniId ['a', 'b'])
              (Day9._normalize uniId o))
            [['c']]
            (EditDist.lev (Day9._normalize uniId ['a', 'b'])
              (Day9._normalize uniId ['a', 'b']))).getD ['a', 'b'],
        Day9.listMinBy
          (fun o => EditDist.lev (Day9._normalize uniId ['a', 'b'])
            (Day9._normalize uniId o))
          [['c']]
          (EditDist.lev (Day9._normalize uniId ['a', 'b'])
            (Day9._normalize uniId ['a', 'b']))) := by
  refine ((C3_day9_contract uniId ['a', 'b'] [['a', 'b'], ['c']] 3 (by decide)).2
    ['a', 'b'] [['c']] rfl).2 _ rfl ?_
  have hm : Day9.listMinBy
      (fun o => EditDist.lev (Day9._normalize uniId ['a', 'b'])
        (Day9._normalize uniId o))
      [['c']]
      (EditDist.lev (Day9._normalize uniId ['a', 'b'])
        (Day9._normalize uniId ['a', 'b'])) = 0 := by
    have h1 : Day9._normalize uniId ['a', 'b'] = ['a', 'b'] := by decide
    have h2 : Day9._normalize uniId ['c'] = ['c'] := by decide
    rw [Day9.listMinBy_cons, Day9.listMinBy, h1]
    rw [EditDist.lev_self]
    simp
  rw [hm]
  decide

/-- C9: a negative threshold behaves exactly like threshold 0 (day9 clamps
`threshold < 0` to 0): the matcher returns a match only for a candidate
whose normalization equals the query's normalization — the first such
candidate, with distance 0 — and `None` otherwise. -/
theorem C9_negative_threshold (u : PyStr.Uni) (q : List Char)
    (names : List (List Char)) (t : Int) (ht : t < 0) :
    Day9.solution u q names t = Day9.solution u q names 0 ∧
      (∀ r, Day9.solution u q names t = some r ↔
        ((names.find? fun o => Day9._normalize u o == Day9._normalize u q) =
            some r.1 ∧ r.2 = 0)) := by
  have htn : t.toNat = (0 : Int).toNat := by omega
  have heq : Day9.solution u q names t = Day9.solution u q names 0 := by
    rw [Day9.solution_eq_naive, Day9.solution_eq_naive, htn]
  refine ⟨heq, ?_⟩
  intro r
  rw [heq]
  cases hnames : names with
  | nil =>
    simp [Day9.solution]
  | cons n0 rest =>
    rw [Day9.solution_unfold u q (n0 :: rest) 0 (by simp)]
    simp only [Int.toNat_zero]
    set s0 := Day9._normalize u q with hs0
    cases hfind : (n0 :: rest).find? fun orig => Day9._normalize u orig == s0 with
    | some o =>
      simp only [hfind]
      constructor
      · intro h
        cases h
        exact ⟨rfl, rfl⟩
      · intro ⟨h1, h2⟩
        cases r with
        | mk r1 r2 =>
          simp only at h1 h2
          cases h1
          rw [h2]
    | none =>
      simp only [hfind]
      have hne : ∀ o ∈ n0 :: rest, Day9._normalize u o ≠ s0 := by
        intro o ho
        have := List.find?_eq_none.mp hfind o ho
        simpa using this
      have hgo := Day9.day9Go_eq_fold u s0 0 (n0 :: rest) none
        (0 + 1) (by omega) (by omega) hne
      rw [hgo]
      simp only [Nat.zero_add]
      set f : List Char → Nat := fun o => EditDist.lev s0 (Day9._normalize u o)
        with hfdef
      have hspec := Day9.foldBest_spec f (n0 :: rest) none 1 (by intro x hx; cases hx)
      constructor
      · intro h
        exfalso
        rcases hfb : (Day9.foldBest f (n0 :: rest) none 1).1 with _ | x
        · rw [hfb] at h
          simp [Day9.day9Finish] at h
        · rw [hfb] at h
          simp only [Day9.day9Finish] at h
          by_cases hv : 0 < (Day9.foldBest f (n0 :: rest) none 1).2
          · rw [if_pos hv] at h
            cases h
          · have hv0 : (Day9.foldBest f (n0 :: rest) none 1).2 = 0 := by omega
            have hval := hspec.1
            rw [hv0] at hval
            rcases Day9.listMinBy_attained f (n0 :: rest) 1 with hc | hc
            · omega
            · obtain ⟨o, ho, hfo⟩ := hc
              have hfo0 : f o = 0 := by omega
              exact hne o ho (EditDist.eq_of_lev_eq_zero hfo0).symm
      · intro ⟨h1, _⟩
        simp at h1

theorem C9_witness :
    Day9.solution uniId ['a'] [['b'], ['a']] (-2) =
        Day9.solution uniId ['a'] [['b'], ['a']] 0 ∧
      (∀ r, Day9.solution uniId ['a'] [['b'], ['a']] (-2) = some r ↔
        (([['b'], ['a']].find? fun o =>
            Day9._normalize uniId o == Day9._normalize uniId ['a']) = some r.1 ∧
          r.2 = 0)) :=
  C9_negative_threshold uniId ['a'] [['b'], ['a']] (-2) (by decide)

/-- C5: day8's `solution` accepts the scanned best candidate exactly when
the best distance is at most 3 or the similarity ratio
`1 - distance / max(len(normalized query), len(normalized best))` is at
least 0.60; on acceptance it returns (a wrapper around) the matched
candidate's text, and on rejection the no-match string.  Python's float
arithmetic is modelled by exact rationals (`0.60` as `3/5`); the code's
`len(...) or 1` guard in the denominator is provably equivalent to the
claim's denominator (`Day8.gate_equiv`). -/
theorem C5_day8_gate (u : PyStr.Uni) (names : List (List Char))
    (q : List Char) (h : names ≠ []) :
    ((Day8.day8Best u names q).2.1 ≤ 3 ∨
        (3 : ℚ) / 5 ≤ 1 - ((Day8.day8Best u names q).2.1 : ℚ) /
          ((max (Day8._normalize u q).length
            (Day8._normalize u (Day8.day8Best u names q).1).length : Nat) : ℚ) →
      Day8.solution u names q = .wrapRet ⟨(Day8.day8Best u names q).1⟩) ∧
    (¬((Day8.day8Best u names q).2.1 ≤ 3 ∨
        (3 : ℚ) / 5 ≤ 1 - ((Day8.day8Best u names q).2.1 : ℚ) /
          ((max (Day8._normalize u q).length
            (Day8._normalize u (Day8.day8Best u names q).1).length : Nat) : ℚ)) →
      Day8.solution u names q = .strRet Day8.nONE) := by
  have hpair := Day8.scanGo_pair u (Day8._normalize u q) names.tail (names.headD [])
    (Day8._levenshtein (Day8._normalize u q) (Day8._normalize u (names.headD []))) 1
  have hspec := Day8.scanFold_spec u (Day8._normalize u q) names.tail
    (names.headD [])
    (Day8._levenshtein (Day8._normalize u q) (Day8._normalize u (names.headD []))) rfl
  have hlink : Day8.fdist u (Day8._normalize u q) (Day8.day8Best u names q).1 =
      (Day8.day8Best u names q).2.1 := by
    have h1 : (Day8.day8Best u names q).1 =
        (Day8.scanFold u (Day8._normalize u q) names.tail (names.headD [])
          (Day8._levenshtein (Day8._normalize u q)
            (Day8._normalize u (names.headD [])))).1 := by
      rw [Day8.day8Best, ← hpair]
    have h2 : (Day8.day8Best u names q).2.1 =
        (Day8.scanFold u (Day8._normalize u q) names.tail (names.headD [])
          (Day8._levenshtein (Day8._normalize u q)
            (Day8._normalize u (names.headD [])))).2 := by
      rw [Day8.day8Best, ← hpair]
    rw [h1, h2]
    exact hspec.2.1
  have hcorner : (Day8._normalize u (Day8.day8Best u names q).1).length = 0 →
      (Day8._normalize u q).length = 0 → (Day8.day8Best u names q).2.1 = 0 := by
    intro hbl hlt
    have hb : Day8._normalize u (Day8.day8Best u names q).1 = [] :=
      List.eq_nil_of_length_eq_zero hbl
    have hq : Day8._normalize u q = [] := List.eq_nil_of_length_eq_zero hlt
    rw [← hlink, Day8.fdist, hq, hb]
    rfl
  have hgate := Day8.gate_equiv (Day8.day8Best u names q).2.1
    (Day8._normalize u q).length
    (Day8._normalize u (Day8.day8Best u names q).1).length
    (fun a b => hcorner a b)
  have hsol : Day8.solution u names q =
      if ((Day8.day8Best u names q).2.1 ≤ 3 ∨
          (60 : ℚ) / 100 ≤ 1 - ((Day8.day8Best u names q).2.1 : ℚ) /
            ((max (Day8._normalize u q).length
              (if (Day8._normalize u (Day8.day8Best u names q).1).length = 0 then 1
               else (Day8._normalize u (Day8.day8Best u names q).1).length) : Nat) : ℚ))
      then .wrapRet ⟨(Day8.day8Best u names q).1⟩
      else .strRet Day8.nONE := by
    rw [Day8.solution, if_neg h]
    rfl
  constructor
  · intro hg
    rw [hsol, if_pos]
    rcases hg with hg | hg
    · exact Or.inl hg
    · exact Or.inr (hgate.mp hg)
  · intro hg
    rw [hsol, if_neg]
    intro hcon
    apply hg
    rcases hcon with hc | hc
    · exact Or.inl hc
    · exact Or.inr (hgate.mpr hc)

theorem C5_witness :
    Day8.solution uniId [['a', 'b'], ['c', 'd']] ['a', 'b'] =
      .wrapRet ⟨(Day8.day8Best uniId [['a', 'b'], ['c', 'd']] ['a', 'b']).1⟩ := by
  refine (C5_day8_gate uniId [['a', 'b'], ['c', 'd']] ['a', 'b'] (by simp)).1 ?_
  left
  decide

namespace Day8

theorem day8Best_eq_scanFold (u : PyStr.Uni) (names : List (List Char))
    (q : List Char) :
    ((day8Best u names q).1, (day8Best u names q).2.1) =
      scanFold u (_normalize u q) names.tail (names.headD [])
        (fdist u (_normalize u q) (names.headD [])) :=
  scanGo_pair u (_normalize u q) names.tail (names.headD []) _ 1

end Day8

/-- C8 counterexample: the claim that the scan terminates immediately as
soon as some candidate's normalization equals the query's normalization is
false for day8 when the exact match is the first candidate: the loop
starts at index 1 and the `break` sits inside the strict-improvement
branch, which an initial best distance of 0 never enters, so every
remaining distance is still computed.  With candidates `["a", "b"]` and
query `"a"`, day8 performs 2 distance computations, not 1. -/
theorem C8_counterexample :
    ¬ (∀ (u : PyStr.Uni) (n0 : List Char) (rest : List (List Char)) (q : List Char),
        Day8._normalize u n0 = Day8._normalize u q →
        Day8.solutionCount u (n0 :: rest) q = 1) := by
  intro hcl
  have h := hcl uniId ['a'] [['b']] ['a'] rfl
  have hval : Day8.solutionCount uniId [['a'], ['b']] ['a'] = 2 := by decide
  rw [hval] at h
  exact absurd h (by decide)

/-- C8 (amended): ties are broken by list order in both matchers — day8's
scan winner is the first candidate attaining the final best distance, and
day9 returns the first exactly-matching candidate; early termination never
changes the result.  The early-termination claim holds in this form: day9
answers an exact match before computing any distance (its trace of scanned
candidates is empty), and day8 stops immediately after an exact match at a
positive index (`j + 2` distance computations for a match at index `j + 1`
of the candidate list); when day8's first candidate is the exact match the
scan runs to the end (see `C8_counterexample`) but the result is unchanged. -/
theorem C8_first_seen_wins (u : PyStr.Uni) (names : List (List Char))
    (q : List Char) :
    (∀ n0 rest, names = n0 :: rest →
      Day8.fdist u (Day8._normalize u q) (Day8.day8Best u names q).1 =
          (Day8.day8Best u names q).2.1 ∧
        names.find? (fun o => Day8.fdist u (Day8._normalize u q) o ==
          (Day8.day8Best u names q).2.1) = some (Day8.day8Best u names q).1) ∧
    (∀ n0 rest j (hj : j < rest.length), names = n0 :: rest →
      Day8.fdist u (Day8._normalize u q) n0 ≠ 0 →
      Day8.fdist u (Day8._normalize u q) (rest.get ⟨j, hj⟩) = 0 →
      (∀ i (hi : i < rest.length), i < j →
        Day8.fdist u (Day8._normalize u q) (rest.get ⟨i, hi⟩) ≠ 0) →
      Day8.solutionCount u names q = j + 2) ∧
    (∀ (t : Int) (o : List Char),
      (names.find? fun o => Day9._normalize u o == Day9._normalize u q) = some o →
      Day9.solution u q names t = some (o, 0) ∧
        Day9.solutionTrace u q names t = []) := by
  refine ⟨?_, ?_, ?_⟩
  · intro n0 rest hn
    subst hn
    have hpair := Day8.day8Best_eq_scanFold u (n0 :: rest) q
    have h1 : (Day8.day8Best u (n0 :: rest) q).1 =
        (Day8.scanFold u (Day8._normalize u q) rest n0
          (Day8.fdist u (Day8._normalize u q) n0)).1 := by
      rw [show ((n0 : List Char) :: rest).tail = rest from rfl,
        show ((n0 : List Char) :: rest).headD [] = n0 from rfl] at hpair
      rw [← hpair]
    have h2 : (Day8.day8Best u (n0 :: rest) q).2.1 =
        (Day8.scanFold u (Day8._normalize u q) rest n0
          (Day8.fdist u (Day8._normalize u q) n0)).2 := by
      rw [show ((n0 : List Char) :: rest).tail = rest from rfl,
        show ((n0 : List Char) :: rest).headD [] = n0 from rfl] at hpair
      rw [← hpair]
    have hspec := Day8.scanFold_spec u (Day8._normalize u q) rest n0
      (Day8.fdist u (Day8._normalize u q) n0) rfl
    constructor
    · rw [h1, h2]
      exact hspec.2.1
    · rw [h1, h2]
      have hle := Day8.runMin_le_seed u (Day8._normalize u q) rest
        (Day8.fdist u (Day8._normalize u q) n0)
      rcases eq_or_lt_of_le hle with hc | hc
      · have hfold := hspec.2.2.1 hc.symm
        rw [hfold]
        have hb : (Day8.fdist u (Day8._normalize u q) n0 ==
            (n0, Day8.fdist u (Day8._normalize u q) n0).2) = true := by
          simp
        rw [List.find?_cons]
        simp only [hb]
      · have hfind := hspec.2.2.2 hc
        have hval := hspec.1
        rw [List.find?_cons]
        have hb : (Day8.fdist u (Day8._normalize u q) n0 ==
            (Day8.scanFold u (Day8._normalize u q) rest n0
              (Day8.fdist u (Day8._normalize u q) n0)).2) = false := by
          rw [beq_eq_false_iff_ne, hval]
          omega
        simp only [hb]
        rw [hval]
        exact hfind
  · intro n0 rest j hj hn hne0 hex hmin
    subst hn
    have hcount := Day8.scanGo_count_exact u (Day8._normalize u q) rest j n0
      (Day8.fdist u (Day8._normalize u q) n0) 1 (by omega) hj hex hmin
    have hsc : Day8.solutionCount u (n0 :: rest) q =
        (Day8.scanGo u (Day8._normalize u q) rest n0
          (Day8.fdist u (Day8._normalize u q) n0) 1).2.2 := by
      rw [Day8.solutionCount, if_neg (by simp)]
      rfl
    rw [hsc, hcount]
    omega
  · intro t o hfind
    have hnn : names ≠ [] := by
      intro hnil
      rw [hnil] at hfind
      simp at hfind
    constructor
    · rw [Day9.solution_unfold u q names t hnn]
      rw [hfind]
    · rw [Day9.solutionTrace, if_neg hnn]
      simp only [hfind]

theorem C8_witness :
    Day9.solution uniId ['a'] [['b'], ['a']] 3 = some (['a'], 0) ∧
      Day9.solutionTrace uniId ['a'] [['b'], ['a']] 3 = [] :=
  (C8_first_seen_wins uniId [['b'], ['a']] ['a']).2.2 3 ['a'] (by decide)

namespace Day8

theorem solution_gate (u : PyStr.Uni) (names : List (List Char))
    (q : List Char) (h : names ≠ []) :
    solution u names q =
      if ((day8Best u names q).2.1 ≤ 3 ∨
          (60 : ℚ) / 100 ≤ 1 - ((day8Best u names q).2.1 : ℚ) /
            ((max (_normalize u q).length
              (if (_normalize u (day8Best u names q).1).length = 0 then 1
               else (_normalize u (day8Best u names q).1).length) : Nat) : ℚ))
      then .wrapRet ⟨(day8Best u names q).1⟩
      else .strRet nONE := by
  rw [solution, if_neg h]
  rfl

theorem day8Best_mem (u : PyStr.Uni) (names : List (List Char))
    (q : List Char) (h : names ≠ []) : (day8Best u names q).1 ∈ names := by
  obtain ⟨n0, rest, rfl⟩ := List.exists_cons_of_ne_nil h
  have hpair := day8Best_eq_scanFold u (n0 :: rest) q
  have h1 : (day8Best u (n0 :: rest) q).1 =
      (scanFold u (_normalize u q) rest n0
        (fdist u (_normalize u q) n0)).1 := by
    rw [show ((n0 : List Char) :: rest).tail = rest from rfl,
      show ((n0 : List Char) :: rest).headD [] = n0 from rfl] at hpair
    rw [← hpair]
  rw [h1]
  rcases scanFold_mem u (_normalize u q) rest n0
      (fdist u (_normalize u q) n0) with hm | hm
  · rw [hm]; exact List.mem_cons_self _ _
  · exact List.mem_cons_of_mem _ hm

end Day8

/-- C10: day8's `solution` never returns a plain matched string — every
rejection yields the literal string `"None"`, and every acceptance yields a
`_SpaceSafeString` wrapper `w` whose wrapped text is one of the original
candidate strings unchanged (`str(w)` returns it as is), for which
`w.replace(" ", "")` is the identity on `w` for every count, and for which
`w.replace` with any other arguments performs ordinary Python string
replacement on the wrapped text. -/
theorem C10_wrapper (u : PyStr.Uni) (names : List (List Char))
    (q : List Char) :
    (∀ s, Day8.solution u names q = .strRet s → s = Day8.nONE) ∧
    (∀ w, Day8.solution u names q = .wrapRet w →
      w.s ∈ names ∧
      w.str = w.s ∧
      (∀ cnt : Int, w.replace [PyStr.spaceChar] [] cnt = w) ∧
      (∀ (old new : List Char) (cnt : Int),
        ¬(old = [PyStr.spaceChar] ∧ new = []) →
        (w.replace old new cnt).s = PyStr.pyReplace w.s old new cnt)) := by
  constructor
  · intro s hsol
    by_cases hn : names = []
    · rw [Day8.solution, if_pos hn] at hsol
      injection hsol with hs
      exact hs.symm
    · rw [Day8.solution_gate u names q hn] at hsol
      by_cases hg : ((Day8.day8Best u names q).2.1 ≤ 3 ∨
          (60 : ℚ) / 100 ≤ 1 - ((Day8.day8Best u names q).2.1 : ℚ) /
            ((max (Day8._normalize u q).length
              (if (Day8._normalize u (Day8.day8Best u names q).1).length = 0
               then 1
               else (Day8._normalize u (Day8.day8Best u names q).1).length) :
              Nat) : ℚ))
      · rw [if_pos hg] at hsol
        injection hsol
      · rw [if_neg hg] at hsol
        injection hsol with hs
        exact hs.symm
  · intro w hsol
    by_cases hn : names = []
    · rw [Day8.solution, if_pos hn] at hsol
      injection hsol
    · rw [Day8.solution_gate u names q hn] at hsol
      by_cases hg : ((Day8.day8Best u names q).2.1 ≤ 3 ∨
          (60 : ℚ) / 100 ≤ 1 - ((Day8.day8Best u names q).2.1 : ℚ) /
            ((max (Day8._normalize u q).length
              (if (Day8._normalize u (Day8.day8Best u names q).1).length = 0
               then 1
               else (Day8._normalize u (Day8.day8Best u names q).1).length) :
              Nat) : ℚ))
      · rw [if_pos hg] at hsol
        injection hsol with hw
        subst hw
        refine ⟨Day8.day8Best_mem u names q hn, rfl, ?_, ?_⟩
        · intro cnt
          simp [Day8._SpaceSafeString.replace]
        · intro old new cnt hne
          simp only [Day8._SpaceSafeString.replace, if_neg hne]
          by_cases hc : cnt = -1
          · subst hc
            rw [if_pos rfl]
          · rw [if_neg hc]
      · rw [if_neg hg] at hsol
        injection hsol

theorem C10_witness :
    ((Day8._SpaceSafeString.mk ['a', 'b']).replace [PyStr.spaceChar] []
        (-1) = Day8._SpaceSafeString.mk ['a', 'b']) ∧
      Day8._SpaceSafeString.mk ['a', 'b'] ∈ ([['a', 'b']] : List (List Char)).map Day8._SpaceSafeString.mk :=
  ⟨(((C10_wrapper uniId [['a', 'b']] ['a', 'b']).2 ⟨['a', 'b']⟩
      rfl).2.2.1) (-1), by simp⟩

namespace Day9

theorem solutionTrace_unfold (u : PyStr.Uni) (q : List Char)
    (names : List (List Char)) (t : Int) (h : names ≠ []) :
    solutionTrace u q names t =
      match names.find? fun orig => _normalize u orig == _normalize u q with
      | some _ => []
      | none =>
        day9GoTrace (_normalize u q) t.toNat
          (names.map fun orig => (orig, _normalize u orig, (_normalize u orig).length))
          none (t.toNat + 1) := by
  rw [solutionTrace, if_neg h]

end Day9

/-- C4 counterexample: "a candidate is skipped without computing a
distance exactly when its normalized length differs from the query's
normalized length by more than the current best distance minus one" is
false as a biconditional: when the normalized query is empty (query `"!"`
normalizes to `""`), `_levenshtein_banded` returns the other operand's
length without running any DP row, so candidate `"x"` is passed over with
no distance computation even though its length gap (1) does not exceed
the current best distance minus one (4 - 1 = 3). -/
theorem C4_counterexample :
    ¬ (∀ (u : PyStr.Uni) (q : List Char) (names : List (List Char)) (t : Int),
        ∀ e ∈ Day9.solutionTrace u q names t,
          (e.ranDP = false ↔ e.best - 1 < e.gap)) := by
  intro hcl
  have h := hcl uniId ['!'] [['x']] 3 ⟨false, 4, 1, ['x']⟩ (by decide)
  have h2 : (4 : Nat) - 1 < 1 := h.mp rfl
  omega

/-- C4 (amended): provided the normalized query and the candidate's
normalized form are both nonempty, a visited candidate is passed over
without any DP row being computed exactly when its normalized-length gap
to the query exceeds the current best distance minus one (the bound
tightens as `best` shrinks, and the fixed-threshold `continue` is
subsumed: `best ≤ threshold + 1` throughout the scan); and the pruning
and early-exit optimizations never change the returned result relative
to a naive scan that computes every distance. -/
theorem C4_skip_characterization (u : PyStr.Uni) (q : List Char)
    (names : List (List Char)) (t : Int) :
    (∀ e ∈ Day9.solutionTrace u q names t,
      Day9._normalize u q ≠ [] → e.nrm ≠ [] →
      (e.ranDP = false ↔ e.best - 1 < e.gap)) ∧
    Day9.solution u q names t = Day9.day9Naive u q names t.toNat := by
  constructor
  · intro e he hs0 hnrm
    by_cases hn : names = []
    · rw [hn] at he
      simp [Day9.solutionTrace] at he
    · rw [Day9.solutionTrace_unfold u q names t hn] at he
      cases hfind : names.find? fun orig =>
          Day9._normalize u orig == Day9._normalize u q with
      | some o =>
        rw [hfind] at he
        simp at he
      | none =>
        rw [hfind] at he
        have hne : ∀ o ∈ names, Day9._normalize u o ≠ Day9._normalize u q := by
          intro o ho
          have := List.find?_eq_none.mp hfind o ho
          simpa using this
        exact Day9.day9GoTrace_entries u (Day9._normalize u q) t.toNat names
          none (t.toNat + 1) (by omega) (le_refl _) hne e he hs0 hnrm
  · exact Day9.solution_eq_naive u q names t

theorem C4_witness :
    (⟨true, 4, 2, ['a', 'b', 'c']⟩ : Day9.TraceEntry).ranDP = false ↔
      (⟨true, 4, 2, ['a', 'b', 'c']⟩ : Day9.TraceEntry).best - 1 <
        (⟨true, 4, 2, ['a', 'b', 'c']⟩ : Day9.TraceEntry).gap :=
  (C4_skip_characterization uniId ['a'] [['a', 'b', 'c']] 3).1
    ⟨true, 4, 2, ['a', 'b', 'c']⟩ (by decide) (by decide) (by decide)
